import Mathlib

/-!
Verification of the spin-unresolved ONV basis (combinatorial addressing scheme,
enumeration, couplings), the DIIS SCF step, and the associated error handling of
the GQCP quantum-chemistry library, against a shallow embedding of the C++
sources (`ONVBasis/SpinUnresolvedONVBasis.cpp`, `RHF/DIISRHFSCFSolver.cpp`).

Modelling conventions:
* `size_t` values are modelled as `Nat`.  All quantities manipulated by the
  addressing scheme (vertex weights, addresses, ONV bit representations) are
  bounded by the basis dimension or by `2^M`, so no unsigned wrap-around occurs
  in contract; wrap-around is modelled explicitly (mod `2^64`) in the places
  where it does occur and matters (the constructor's loop bounds for `N > M`,
  see `sub64` below).
* the C++ idioms `copy & -copy` (isolate lowest set bit) and `~t & (t + 1)`
  (isolate lowest zero bit of `t`, i.e. lowest set bit of `t + 1`) are modelled
  width-independently as `2 ^ ctz copy` and `2 ^ ctz (t + 1)`; these are the
  exact 64-bit values for all in-contract inputs.
* loops are modelled by structurally recursive functions (a fuel parameter
  bounds the iteration count where the C++ loop condition is not itself
  structural); every definition is executable by the kernel.
-/

namespace GQCP


/-! ### Bit-level helpers: count-trailing-zeros and popcount

`__builtin_ctzl` and bit counting, used by `addressOf` and `nextPermutationOf`.
The fuel argument makes the recursion structural; `n` itself is always enough
fuel since the argument at least halves each step. -/

def ctzAux : Nat → Nat → Nat
  | 0, _ => 0
  | fuel + 1, n => if n % 2 = 1 ∨ n = 0 then 0 else ctzAux fuel (n / 2) + 1


/-- Number of trailing zero bits of `n` (`__builtin_ctzl`); `ctz 0 = 0`. -/
def ctz (n : Nat) : Nat := ctzAux n n


def popcountAux : Nat → Nat → Nat
  | 0, _ => 0
  | fuel + 1, n => if n = 0 then 0 else popcountAux fuel (n / 2) + n % 2


/-- Number of set bits of `n`. -/
def popcount (n : Nat) : Nat := popcountAux n n


/-! ### The vertex-weight table of the addressing scheme

Shallow embedding of the constructor `SpinUnresolvedONVBasis::SpinUnresolvedONVBasis`:
the `(M+1) x (N+1)` table `vertex_weights` is modelled as a function
`Nat → Nat → Nat` (row `p`, column `m`); the zero matrix plus the first loop
(`vertex_weights[p][0] = 1` for `p < M - N + 1`) give `initialTable`, and the
double loop (`m = 1 .. N`, `p = m .. M - N + m`) applying the recurrence
`W(p,m) = W(p-1,m) + W(p-1,m-1)` is a fold over the same index ranges. -/

def updateTable (T : Nat → Nat → Nat) (p m v : Nat) : Nat → Nat → Nat :=
  fun p' m' => if p' = p ∧ m' = m then v else T p' m'


def initialTable (M N : Nat) : Nat → Nat → Nat :=
  fun p m => if m = 0 ∧ p < M - N + 1 then 1 else 0


def fillColumn (M N m : Nat) (T : Nat → Nat → Nat) : Nat → Nat → Nat :=
  (List.range' m (M - N + 1)).foldl
    (fun T' p => updateTable T' p m (T' (p - 1) m + T' (p - 1) (m - 1))) T


def vertexWeightsTable (M N : Nat) : Nat → Nat → Nat :=
  (List.range' 1 N).foldl (fun T m => fillColumn M N m T) (initialTable M N)


/-- Modelled from the spec: the header-only accessor `vertexWeight(p, m)` is a
read-only lookup in `vertex_weights`, returning 0 for out-of-table indices
(spec section 4.1); the header file is not part of the sources. -/
def vertexWeight (M N p m : Nat) : Nat :=
  if p ≤ M ∧ m ≤ N then vertexWeightsTable M N p m else 0


/-- Closed form of the vertex-weight table: binomial coefficients inside the
band `m ≤ p ≤ M - N + m`, and 0 outside it. -/
def bandWeight (M N p m : Nat) : Nat :=
  if m ≤ N ∧ m ≤ p ∧ p ≤ M - N + m then Nat.choose p m else 0


/-! ### addressOf, representationOf and nextPermutationOf

Shallow embedding of `SpinUnresolvedONVBasis::addressOf`,
`SpinUnresolvedONVBasis::representationOf` and
`SpinUnresolvedONVBasis::nextPermutationOf`.  The loops are parameterized by
the weight function `w`: the source instantiates it with `vertexWeight M N`;
the proofs compare against the instantiation with `Nat.choose` (the pure
combinatorial number system), which agrees on every in-contract argument.

`representationOf` contains one line of 32-bit `int` arithmetic embedded in
otherwise 64-bit code: the bit set `representation |= ((1) << (p - 1))` shifts
the plain `int` literal `1`.  For bit indices up to 30 this is the exact power
of two; at index 31 the `int` acquires the sign-bit pattern and sign-extends to
bits 31–63 when converted to `size_t` for the `|=`; at indices 32 and above the
shift is undefined behaviour.  This is modelled exactly by `intShl1` below.
The value-level loop `unrankNat` with the ideal bit set `2 ^ p` serves as the
proof intermediary; `unrankLoopAcc` is the faithful loop and agrees with it
exactly when the resulting representation stays below bit 31. -/

/-- While-loop of `addressOf`, state `(copy, address, electron_count)`: each
iteration takes `p := __builtin_ctzl(copy)`, increments the electron count,
adds the vertex weight `w p electron_count`, and clears the lowest set bit
(`copy ^= copy & -copy`, i.e. subtracts `2 ^ ctz copy`).  The fuel argument
makes the loop structural; `copy` itself is always sufficient fuel since
`copy` strictly decreases. -/
def rankLoopAux (w : Nat → Nat → Nat) : Nat → Nat → Nat → Nat → Nat
  | 0, _, address, _ => address
  | fuel + 1, copy, address, ec =>
    if copy = 0 then address
    else rankLoopAux w fuel (copy - 2 ^ ctz copy) (address + w (ctz copy) (ec + 1)) (ec + 1)


def rankLoop (w : Nat → Nat → Nat) (copy address ec : Nat) : Nat :=
  rankLoopAux w copy copy address ec


/-- Embedding of `SpinUnresolvedONVBasis::addressOf`. -/
def addressOf (M N representation : Nat) : Nat :=
  rankLoop (vertexWeight M N) representation 0 0


/-- Colexicographic rank: the same loop with pure binomial-coefficient weights. -/
def colexRank (r : Nat) : Nat := rankLoop Nat.choose r 0 0


/-- Ideal-arithmetic form of the `representationOf` loop, walking the orbital
index `p` from `M` down to `1` with state `(address, m)`; when the vertex
weight `w (p-1) m` fits into the remaining address the orbital `p-1` is marked
occupied (bit `p-1` set with the ideal value `2 ^ p`, a disjoint-bit `|=`
written as `+`) and `m` is decremented; the loop stops when `m` reaches `0`.
Used as a proof intermediary: the faithful loop `unrankLoopAcc` agrees with it
whenever the result stays below bit 31. -/
def unrankNat (w : Nat → Nat → Nat) : Nat → Nat → Nat → Nat
  | 0, _, _ => 0
  | p + 1, address, m =>
    if m = 0 then 0
    else if w p m ≤ address then 2 ^ p + unrankNat w p (address - w p m) (m - 1)
    else unrankNat w p address m


/-- Ideal-arithmetic unranking (proof intermediary for `representationOf`). -/
def representationOfNat (M N address : Nat) : Nat :=
  if N ≠ 0 then unrankNat (vertexWeight M N) M address N else 0


/-- The `size_t` value OR-ed into the representation by
`representation |= ((1) << (p - 1))`, as a function of the bit index: `1` is a
32-bit `int`, so for index up to 30 the result is the exact `2 ^ p`; at index
31 the shift produces the `int` sign-bit pattern, which sign-extends to bits
31–63 (value `2 ^ 64 - 2 ^ 31`) under the conversion to `size_t`; for index 32
and above the shift is undefined behaviour, modelled as `none`. -/
def intShl1 (p : Nat) : Option Nat :=
  if p ≤ 30 then some (2 ^ p)
  else if p = 31 then some (2 ^ 64 - 2 ^ 31)
  else none


/-- Faithful loop of `SpinUnresolvedONVBasis::representationOf`: identical
control flow to `unrankNat` (the branch tests depend only on the weights and
the running address, never on the representation), but the bit set goes
through the `int`-width `intShl1` and accumulates with a genuine `|||` into
`rep`; the source's `if (m == 0) break;` sits inside the taken branch. -/
def unrankLoopAcc (w : Nat → Nat → Nat) : Nat → Nat → Nat → Nat → Option Nat
  | 0, _, _, rep => some rep
  | p + 1, address, m, rep =>
    if w p m ≤ address then
      (intShl1 p).bind (fun b =>
        if m - 1 = 0 then some (rep ||| b)
        else unrankLoopAcc w p (address - w p m) (m - 1) (rep ||| b))
    else unrankLoopAcc w p address m rep


/-- Embedding of `SpinUnresolvedONVBasis::representationOf` (faithful to the
`int`-width bit set; `none` exactly when the source's shift is undefined
behaviour). -/
def representationOf (M N address : Nat) : Option Nat :=
  if N ≠ 0 then unrankLoopAcc (vertexWeight M N) M address N 0 else some 0


/-- Embedding of `SpinUnresolvedONVBasis::nextPermutationOf`.
`t` gets the representation's least significant 0 bits set to 1; the C++
`~t & (t + 1)` isolates the lowest zero bit of `t`, i.e. the lowest set bit of
`t + 1`, modelled width-independently as `2 ^ ctz (t + 1)` (exact for every
in-contract 64-bit input, i.e. whenever `t + 1` does not overflow — the ONV is
not the basis's last one). -/
def nextPermutationOf (representation : Nat) : Nat :=
  ((representation ||| (representation - 1)) + 1) |||
    ((2 ^ ctz ((representation ||| (representation - 1)) + 1) - 1) >>> (ctz representation + 1))


/-! ### Enumeration: `forEach` -/

/-- Modelled from the spec: the header-only accessor `dimension()` returns the
total configuration count `C(M, N)` (spec section 3: "`dimension = C(M,N)`");
the header file is not part of the sources. -/
def dimension (M N : Nat) : Nat := Nat.choose M N


/-- Loop of `SpinUnresolvedONVBasis::forEach`: starting from the ONV with
address 0, visit `(onv, I)` for `I = 0, …, dim - 1`, advancing the single
mutable ONV with `nextPermutationOf` between iterations but never after the
final address ("prevent the last permutation from occurring").  The iteration
count `k` (`dim - I` at entry) drives the recursion. -/
def enumFrom : Nat → Nat → Nat → List (Nat × Nat)
  | _, _, 0 => []
  | onv, I, k + 1 =>
    (onv, I) :: (if k = 0 then [] else enumFrom (nextPermutationOf onv) (I + 1) k)


/-- The list of `(representation, address)` pairs passed to the `forEach`
callback, in invocation order, with the starting ONV taken at its ideal value
(the intended representation of address 0).  Used inside the couplings
assembly, whose recorded index structure does not depend on the
representation's value. -/
def forEachListNat (M N : Nat) : List (Nat × Nat) :=
  enumFrom (representationOfNat M N 0) 0 (dimension M N)


/-- Modelled from the spec: a `SpinUnresolvedONV`'s occupied-orbital indices in
ascending order (spec section 3: "derived accessors give occupied-orbital
indices in ascending order"); the ONV class is header-only. -/
def occupationIndicesOf (M r : Nat) : List Nat :=
  (List.range M).filter (fun p => r.testBit p)


/-- Modelled from the spec: `onv.occupationIndexOf(e)` is the index of the
`e`-th occupied orbital, counting from the lowest. -/
def occupationIndexOf (M r e : Nat) : Nat := (occupationIndicesOf M r).getD e 0


/-- Embedding of `SpinUnresolvedONVBasis::countOneElectronCouplings`: each
electron `e1` on orbital `p` contributes the `V + e1 - p` virtual orbitals
above `p` (`V = M - N`). -/
def countOneElectronCouplings (M N r : Nat) : Nat :=
  ∑ e1 ∈ Finset.range N, (M - N + e1 - occupationIndexOf M r e1)


/-- Embedding of `SpinUnresolvedONVBasis::countTotalOneElectronCouplings`:
the product `(M - N) * N * dimension()` is computed in `size_t` and therefore
wraps modulo `2 ^ 64` (which it does on constructible bases, e.g.
`M = 64, N = 32`). -/
def countTotalOneElectronCouplings (M N : Nat) : Nat :=
  ((M - N) * N * dimension M N) % 2 ^ 64


/-- Index of the sparse matrix for orbital pair `(p, q)` in the flattened
vector: `p * (K + K + 1 - p) / 2 + (q - p)`. -/
def matIdx (K p q : Nat) : Nat := p * (K + K + 1 - p) / 2 + (q - p)


/-- Modelled from the spec: `shiftUntilNextUnoccupiedOrbital<1>` — while the
creation index `q` is occupied, re-weight the running address for the passed
electron, advance `q` and the electron count, and flip the sign (spec section
4.3: "skipping already-occupied orbitals and tracking a running sign (±1) that
flips with each occupied orbital passed over").  The helper is header-only.
State `(address, q, e, sign)`; the fuel bounds the loop by the electron count. -/
def shiftLoop (M N : Nat) (occ : List Nat) :
    Nat → Int → Nat → Nat → Int → (Int × Nat × Nat × Int)
  | 0, address, q, e, sign => (address, q, e, sign)
  | fuel + 1, address, q, e, sign =>
    if e < N ∧ occ.getD e 0 = q then
      shiftLoop M N occ fuel
        (address + (vertexWeight M N q e : Int) - (vertexWeight M N q (e + 1) : Int))
        (q + 1) (e + 1) (-sign)
    else (address, q, e, sign)


/-- Creation-scan while-loop of `calculateOneElectronCouplings` (`while (q < K)`):
emit the coupled pair `(I, J, sign)` and `(J, I, sign)` into the sparse list of
orbital pair `(p, q)`, advance `q`, and shift past occupied orbitals.  Entries
are tagged with their flattened matrix index. -/
def scanLoop (M N : Nat) (occ : List Nat) (p I : Nat) :
    Nat → Int → Nat → Nat → Int → List (Nat × (Int × Int × Int))
  | 0, _, _, _, _ => []
  | fuel + 1, address, q, e2, sign =>
    if q < M then
      (matIdx M p q, ((I : Int), address + (vertexWeight M N q e2 : Int), sign)) ::
      (matIdx M p q, (address + (vertexWeight M N q e2 : Int), (I : Int), sign)) ::
      scanLoop M N occ p I fuel
        (shiftLoop M N occ N address (q + 1) e2 sign).1
        (shiftLoop M N occ N address (q + 1) e2 sign).2.1
        (shiftLoop M N occ N address (q + 1) e2 sign).2.2.1
        (shiftLoop M N occ N address (q + 1) e2 sign).2.2.2
    else []


/-- Annihilation step of `calculateOneElectronCouplings` for electron `e1` of
the ONV with address `I`: subtract the arc weight of the annihilated orbital
`p`, record the diagonal entry `(I, I, 1)`, then shift and scan creation
orbitals above `p`. -/
def couplingsForElectron (M N : Nat) (occ : List Nat) (I e1 : Nat) :
    List (Nat × (Int × Int × Int)) :=
  (matIdx M (occ.getD e1 0) (occ.getD e1 0), ((I : Int), (I : Int), 1)) ::
  scanLoop M N occ (occ.getD e1 0) I M
    (shiftLoop M N occ N
      ((I : Int) - (vertexWeight M N (occ.getD e1 0) (e1 + 1) : Int))
      (occ.getD e1 0 + 1) (e1 + 1) 1).1
    (shiftLoop M N occ N
      ((I : Int) - (vertexWeight M N (occ.getD e1 0) (e1 + 1) : Int))
      (occ.getD e1 0 + 1) (e1 + 1) 1).2.1
    (shiftLoop M N occ N
      ((I : Int) - (vertexWeight M N (occ.getD e1 0) (e1 + 1) : Int))
      (occ.getD e1 0 + 1) (e1 + 1) 1).2.2.1
    (shiftLoop M N occ N
      ((I : Int) - (vertexWeight M N (occ.getD e1 0) (e1 + 1) : Int))
      (occ.getD e1 0 + 1) (e1 + 1) 1).2.2.2


/-- All tagged triplets emitted for one ONV (the `e1` loop). -/
def couplingsForONV (M N r I : Nat) : List (Nat × (Int × Int × Int)) :=
  (List.range N).flatMap (couplingsForElectron M N (occupationIndicesOf M r) I)


/-- Embedding of `SpinUnresolvedONVBasis::calculateOneElectronCouplings`: the
vector of `K (K + 1) / 2` sparse matrices, each modelled as its dimension
together with the list of triplets inserted into it, in insertion order.  For
`N = 0` the function returns the default-constructed empty matrices early. -/
def calculateOneElectronCouplings (M N : Nat) : List (Nat × List (Int × Int × Int)) :=
  if N = 0 then
    (List.range (M * (M + 1) / 2)).map (fun _ => (dimension M N, []))
  else
    (List.range (M * (M + 1) / 2)).map (fun k =>
      (dimension M N,
        (((forEachListNat M N).flatMap (fun rI => couplingsForONV M N rI.1 rI.2)).filter
          (fun ent => ent.1 == k)).map (fun ent => ent.2)))


/-- Mirror-closure: every recorded off-diagonal triplet is accompanied by its
transpose with the same sign, in the same tagged matrix. -/
def MirrorClosed (l : List (Nat × (Int × Int × Int))) : Prop :=
  ∀ k I J s, (k, (I, J, s)) ∈ l → (k, (J, I, s)) ∈ l


/-! ### The coupling-count identity -/

/-- Bit representation of a set of occupied orbitals. -/
def configurationOf (s : Finset Nat) : Nat := ∑ p ∈ s, 2 ^ p


/-! ### calculateDimension: binomial coefficients through double precision

`SpinUnresolvedONVBasis::calculateDimension` computes
`boost::math::binomial_coefficient<double>(M, N)` and converts the `double` to
`size_t` with `boost::numeric::converter`, which throws on positive overflow.
The `double` value is modelled as the 53-bit round-to-nearest (ties to even)
approximation of the exact binomial coefficient `C(M, N)`: a `double` carries a
53-bit significand, so this is the best value the library call can produce, and
every conclusion drawn below (exactness below `2^53`, inexactness when `C(M,N)`
needs more than 53 significand bits) is insensitive to the library's final ulp.
The conversion's range check is `value >= 2^64 → positive_overflow`. -/

/-- Exact binomial coefficient by the multiplicative recurrence
`C(n, i+1) = C(n, i) * (n - i) / (i + 1)` (exact division); used to evaluate
large binomial coefficients inside the kernel, where the recursive
`Nat.choose` is infeasible. -/
def binom (n k : Nat) : Nat :=
  (List.range k).foldl (fun acc i => acc * (n - i) / (i + 1)) 1


/-- Exponent of the unit in the last place of the 53-bit float holding `n`:
the number of halvings needed to bring `n` below `2 ^ 53`.  The fixed fuel
1100 covers every value below `2 ^ 1153`, far beyond the `double` range. -/
def ulpExpAux : Nat → Nat → Nat
  | 0, _ => 0
  | fuel + 1, n => if n < 2 ^ 53 then 0 else ulpExpAux fuel (n / 2) + 1


def ulpExp (n : Nat) : Nat := ulpExpAux 1100 n


/-- Round-to-nearest (ties to even) at 53 significand bits: the `double` value
nearest to the natural number `n`. -/
def roundFloat64 (n : Nat) : Nat :=
  if n < 2 ^ 53 then n
  else
    if 2 * (n % 2 ^ ulpExp n) < 2 ^ ulpExp n then n / 2 ^ ulpExp n * 2 ^ ulpExp n
    else if 2 ^ ulpExp n < 2 * (n % 2 ^ ulpExp n) then (n / 2 ^ ulpExp n + 1) * 2 ^ ulpExp n
    else
      (if n / 2 ^ ulpExp n % 2 = 0 then n / 2 ^ ulpExp n else n / 2 ^ ulpExp n + 1) * 2 ^ ulpExp n


/-- Embedding of `SpinUnresolvedONVBasis::calculateDimension`. -/
def calculateDimension (M N : Nat) : Except String Nat :=
  if roundFloat64 (Nat.choose M N) < 2 ^ 64 then Except.ok (roundFloat64 (Nat.choose M N))
  else Except.error "overflow"


/-! ### Dense-evaluation guards -/

/-- Error kind surfaced by the dense evaluation entry points
(`std::invalid_argument`). -/
inductive EvalError where
  | invalidArgument : String → EvalError


/-- Embedding of
`evaluateOperatorDense(const ScalarGSQOneElectronOperator<double>&)`: the guard
compares the operator's orbital count with the basis's; only when they match is
the evaluation container filled (the header-only `evaluate` template is
abstracted as the parameter `evaluate`, applied to the container's dimension). -/
def evaluateOperatorDenseOne (A : Type) (M N f_orbitals : Nat) (evaluate : Nat → A) :
    Except EvalError A :=
  if f_orbitals ≠ M then
    Except.error (EvalError.invalidArgument
      "SpinUnresolvedONVBasis::evaluateOperatorDense: The number of orbitals of this ONV basis and the given one-electron operator are incompatible.")
  else Except.ok (evaluate (dimension M N))


/-- Embedding of `evaluateOperatorDense(const GSQHamiltonian<double>&)`. -/
def evaluateOperatorDenseHamiltonian (A : Type) (M N h_orbitals : Nat) (evaluate : Nat → A) :
    Except EvalError A :=
  if h_orbitals ≠ M then
    Except.error (EvalError.invalidArgument
      "SpinUnresolvedONVBasis::evaluateOperatorDense: The number of orbitals of this ONV basis and the given Hamiltonian are incompatible.")
  else Except.ok (evaluate (dimension M N))


/-! ### The constructor's loop bounds under size_t wrap-around -/

/-- 64-bit unsigned subtraction (`size_t` wrap-around semantics). -/
def sub64 (a b : Nat) : Nat := (a % 2 ^ 64 + 2 ^ 64 - b % 2 ^ 64) % 2 ^ 64


/-- Exclusive upper bound of the constructor's first loop
(`for (p = 0; p < M - N + 1; p++)`), with `M - N + 1` computed in `size_t`. -/
def firstLoopBound64 (M N : Nat) : Nat := (sub64 M N + 1) % 2 ^ 64


/-- Exclusive upper bound of the constructor's inner loop for column `m`
(`for (p = m; p < (M - N + m) + 1; p++)`), computed in `size_t`. -/
def innerLoopBound64 (M N m : Nat) : Nat := ((sub64 M N + m) % 2 ^ 64 + 1) % 2 ^ 64


/-- The constructor's table under exact `size_t` loop-bound semantics
(wrap-around included); for `N ≤ M < 2^64` the bounds agree with
`vertexWeightsTable`. -/
def vertexWeightsTable64 (M N : Nat) : Nat → Nat → Nat :=
  (List.range' 1 N).foldl
    (fun T m => (List.range' m (innerLoopBound64 M N m - m)).foldl
      (fun T' p => updateTable T' p m (T' (p - 1) m + T' (p - 1) (m - 1))) T)
    (fun p m => if m = 0 ∧ p < firstLoopBound64 M N then 1 else 0)


/-! ### The DIIS SCF step

Shallow embedding of `DIISRHFSCFSolver::calculateNewFockMatrix`.  The numeric
scalar type is an arbitrary commutative ring `K` (the C++ uses `double`); the
Eigen `HouseholderQR::solve` call is abstracted as the parameter `linSolve`,
since the claim constrains only which linear system is handed to it and how its
solution is used.  `calculateRHFAOFockMatrix` lives in a source file that is
not part of this tree, so the freshly computed Fock matrix `f_AO` is an input. -/

def matUpdate {n : Nat} {K : Type} (B : Matrix (Fin n) (Fin n) K) (i j : Fin n) (v : K) :
    Matrix (Fin n) (Fin n) K :=
  fun i' j' => if i' = i ∧ j' = j then v else B i' j'


def vecUpdate {n : Nat} {K : Type} (b : Fin n → K) (i : Fin n) (v : K) : Fin n → K :=
  fun i' => if i' = i then v else b i'


/-- Imperative construction of the augmented DIIS matrix, as in the source:
`B = -1 * Ones(n+1, n+1)`, then `B(n, n) = 0`, then the double loop filling
`B(i, j) = Tr(e_i^T e_j)` for `i, j < n`. -/
def diisBMatrix (d n : Nat) (K : Type) [CommRing K]
    (errs : List (Matrix (Fin d) (Fin d) K)) : Matrix (Fin (n + 1)) (Fin (n + 1)) K :=
  (List.finRange n).foldl
    (fun B (i : Fin n) => (List.finRange n).foldl
      (fun B (j : Fin n) => matUpdate B i.castSucc j.castSucc
        ((Matrix.transpose (errs.getD (i : Nat) 0) * errs.getD (j : Nat) 0).trace)) B)
    (matUpdate (fun _ _ => -1) (Fin.last n) (Fin.last n) 0)


/-- Imperative construction of the right-hand side: a zero vector whose last
entry is set to `-1`. -/
def diisRHSVec (n : Nat) (K : Type) [CommRing K] : Fin (n + 1) → K :=
  vecUpdate (fun _ => 0) (Fin.last n) (-1)


/-- The augmented Pulay/DIIS matrix as the specification words it: pairwise
error-overlap traces in the leading `n × n` block, a `-1` border, and a zero
corner. -/
def diisBSpec (d n : Nat) (K : Type) [CommRing K]
    (errs : List (Matrix (Fin d) (Fin d) K)) : Matrix (Fin (n + 1)) (Fin (n + 1)) K :=
  fun i j =>
    if (i : Nat) < n ∧ (j : Nat) < n then (Matrix.transpose (errs.getD (i : Nat) 0) * errs.getD (j : Nat) 0).trace
    else if (i : Nat) = n ∧ (j : Nat) = n then 0 else -1


/-- The right-hand side as the specification words it: zero except for `-1` in
the last entry. -/
def diisRHSSpec (n : Nat) (K : Type) [CommRing K] : Fin (n + 1) → K :=
  fun i => if (i : Nat) = n then -1 else 0


/-- Embedding of `DIISRHFSCFSolver::calculateNewFockMatrix`: append the new
Fock/error pair, solve the DIIS system once the subspace is large enough,
collapse the subspace when it exceeds the maximum; returns the new Fock matrix
and the updated deques. -/
def calculateNewFockMatrix (d : Nat) (K : Type) [CommRing K]
    (linSolve : (m : Nat) → Matrix (Fin m) (Fin m) K → (Fin m → K) → (Fin m → K))
    (minimum_subspace_dimension maximum_subspace_dimension : Nat)
    (fock_matrix_deque error_matrix_deque : List (Matrix (Fin d) (Fin d) K))
    (f_AO D_AO S : Matrix (Fin d) (Fin d) K) :
    Matrix (Fin d) (Fin d) K × List (Matrix (Fin d) (Fin d) K) × List (Matrix (Fin d) (Fin d) K) :=
  let error_matrix := f_AO * D_AO * S - S * D_AO * f_AO
  let fock_deque := fock_matrix_deque ++ [f_AO]
  let error_deque := error_matrix_deque ++ [error_matrix]
  let n := error_deque.length
  let f_result :=
    if minimum_subspace_dimension ≤ n then
      ∑ i : Fin (n + 1),
        if (i : Nat) < n then
          (linSolve (n + 1) (diisBMatrix d n K error_deque) (diisRHSVec n K)) i •
            fock_deque.getD (i : Nat) 0
        else 0
    else f_AO
  if maximum_subspace_dimension < n then (f_result, fock_deque.tail, error_deque.tail)
  else (f_result, fock_deque, error_deque)


/-- A trivial stand-in for the abstract linear solver, used to exercise
`calculateNewFockMatrix` on concrete inputs. -/
def zeroSolve : (m : Nat) → Matrix (Fin m) (Fin m) ℤ → (Fin m → ℤ) → (Fin m → ℤ) :=
  fun _ _ _ => fun _ => 0


/-- A constant `1 × 1` matrix over `ℤ`, used to exercise
`calculateNewFockMatrix` on concrete inputs. -/
def constMat1 (v : ℤ) : Matrix (Fin 1) (Fin 1) ℤ :=
  fun _ _ => v


theorem ctzAux_congr : ∀ f g n, n ≤ f → n ≤ g → ctzAux f n = ctzAux g n := by
  intro f
  induction f using Nat.strong_induction_on with
  | _ f ih =>
    intro g n hf hg
    match f, g with
    | 0, g =>
      interval_cases n
      cases g <;> simp [ctzAux]
    | f + 1, 0 =>
      interval_cases n
      simp [ctzAux]
    | f + 1, g + 1 =>
      simp only [ctzAux]
      by_cases h : n % 2 = 1 ∨ n = 0
      · simp [h]
      · simp only [h, if_false]
        have hn : n ≠ 0 := by tauto
        have : n / 2 ≤ f := by omega
        have : n / 2 ≤ g := by omega
        rw [ih f (by omega) g (n / 2) (by omega) (by omega)]


theorem ctz_eq_zero_of_odd {n : Nat} (h : n % 2 = 1) : ctz n = 0 := by
  have hn : n ≠ 0 := by omega
  unfold ctz
  match n, hn with
  | n + 1, _ => simp [ctzAux, h]


theorem ctz_eq (n : Nat) (h : n % 2 = 0) (hn : n ≠ 0) : ctz n = ctz (n / 2) + 1 := by
  unfold ctz
  match n, hn with
  | n + 1, _ =>
    simp only [ctzAux, h]
    rw [if_neg (by omega)]
    rw [ctzAux_congr n ((n + 1) / 2) ((n + 1) / 2) (by omega) (by omega)]


theorem popcountAux_congr : ∀ f g n, n ≤ f → n ≤ g → popcountAux f n = popcountAux g n := by
  intro f
  induction f using Nat.strong_induction_on with
  | _ f ih =>
    intro g n hf hg
    match f, g with
    | 0, g =>
      interval_cases n
      cases g <;> simp [popcountAux]
    | f + 1, 0 =>
      interval_cases n
      simp [popcountAux]
    | f + 1, g + 1 =>
      simp only [popcountAux]
      by_cases h : n = 0
      · simp [h]
      · simp only [h, if_false]
        rw [ih f (by omega) g (n / 2) (by omega) (by omega)]


theorem popcount_zero : popcount 0 = 0 := rfl


theorem popcount_eq (n : Nat) (hn : n ≠ 0) : popcount n = popcount (n / 2) + n % 2 := by
  unfold popcount
  match n, hn with
  | n + 1, _ =>
    simp only [popcountAux, reduceCtorEq, if_false]
    rw [popcountAux_congr n ((n + 1) / 2) ((n + 1) / 2) (by omega) (by omega)]


theorem popcount_double_add (n r : Nat) (hr : r < 2) : popcount (2 * n + r) = popcount n + r := by
  by_cases h : 2 * n + r = 0
  · have : n = 0 ∧ r = 0 := by omega
    simp [this.1, this.2, popcount_zero]
  · rw [popcount_eq _ h]
    have h2 : (2 * n + r) / 2 = n := by omega
    have h3 : (2 * n + r) % 2 = r := by omega
    rw [h2, h3]


theorem popcount_eq_zero {n : Nat} : popcount n = 0 ↔ n = 0 := by
  constructor
  · intro h
    by_contra hn
    induction n using Nat.strong_induction_on with
    | _ n ih =>
      rw [popcount_eq n hn] at h
      rcases Nat.eq_zero_or_pos (n / 2) with h2 | h2
      · omega
      · exact ih (n / 2) (by omega) (by omega) (by omega)
  · intro h; simp [h, popcount_zero]


/-- Splitting a number at bit `i`: the popcount is additive over the split. -/
theorem popcount_split (i : Nat) : ∀ a b, b < 2 ^ i → popcount (2 ^ i * a + b) = popcount a + popcount b := by
  induction i with
  | zero =>
    intro a b hb
    interval_cases b
    simp [popcount_zero]
  | succ i ih =>
    intro a b hb
    have key : 2 ^ (i + 1) * a + b = 2 * (2 ^ i * a + b / 2) + b % 2 := by
      rw [pow_succ]; ring_nf; omega
    rw [key, popcount_double_add _ _ (by omega), ih a (b / 2) (by omega)]
    by_cases hbz : b = 0
    · simp [hbz, popcount_zero]
    · rw [popcount_eq b hbz]
      omega


theorem popcount_two_pow (i : Nat) : popcount (2 ^ i) = 1 := by
  have := popcount_split i 1 0 (by positivity)
  simpa [popcount_zero, popcount_eq 1 one_ne_zero] using this


theorem popcount_le_of_lt_two_pow : ∀ k n, n < 2 ^ k → popcount n ≤ k := by
  intro k
  induction k with
  | zero =>
    intro n hn
    interval_cases n
    simp [popcount_zero]
  | succ k ih =>
    intro n hn
    by_cases h : n = 0
    · simp [h, popcount_zero]
    · rw [popcount_eq n h]
      have := ih (n / 2) (by omega)
      omega


theorem ctz_two_pow_mul {u : Nat} (z : Nat) (hu : u % 2 = 1) : ctz (2 ^ z * u) = z := by
  induction z with
  | zero => simpa using ctz_eq_zero_of_odd hu
  | succ z ih =>
    have hmul : 2 ^ (z + 1) * u = 2 * (2 ^ z * u) := by ring
    have hne : 2 ^ z * u ≠ 0 := Nat.mul_ne_zero (by positivity) (by omega)
    rw [hmul, ctz_eq _ (by omega) (by omega), Nat.mul_div_cancel_left _ (by omega), ih]


theorem ctz_spec (n : Nat) (hn : n ≠ 0) : ∃ u, u % 2 = 1 ∧ n = 2 ^ ctz n * u := by
  induction n using Nat.strong_induction_on with
  | _ n ih =>
    by_cases h : n % 2 = 1
    · exact ⟨n, h, by simp [ctz_eq_zero_of_odd h]⟩
    · obtain ⟨u, hu, hrep⟩ := ih (n / 2) (by omega) (by omega)
      refine ⟨u, hu, ?_⟩
      rw [ctz_eq n (by omega) hn]
      calc n = 2 * (n / 2) := by omega
      _ = 2 * (2 ^ ctz (n / 2) * u) := by rw [← hrep]
      _ = 2 ^ (ctz (n / 2) + 1) * u := by ring


theorem two_pow_ctz_le (n : Nat) (hn : n ≠ 0) : 2 ^ ctz n ≤ n := by
  obtain ⟨u, hu, hrep⟩ := ctz_spec n hn
  have : 1 ≤ u := by omega
  calc 2 ^ ctz n = 2 ^ ctz n * 1 := by ring
  _ ≤ 2 ^ ctz n * u := by exact Nat.mul_le_mul_left _ this
  _ = n := hrep.symm


theorem ctz_lt_of_lt_two_pow {n B : Nat} (hn : n ≠ 0) (hB : n < 2 ^ B) : ctz n < B := by
  have h1 := two_pow_ctz_le n hn
  have h2 : 2 ^ ctz n < 2 ^ B := lt_of_le_of_lt h1 hB
  exact (Nat.pow_lt_pow_iff_right (by omega)).mp h2


/-- Removing the lowest set bit decrements the popcount. -/
theorem popcount_pow_mul {z u : Nat} : popcount (2 ^ z * u) = popcount u := by
  have h := popcount_split z u 0 (by positivity)
  simpa [popcount_zero] using h


theorem popcount_sub_two_pow_ctz (n : Nat) (hn : n ≠ 0) : popcount (n - 2 ^ ctz n) + 1 = popcount n := by
  obtain ⟨u, hu, hrep⟩ := ctz_spec n hn
  set z := ctz n with hzdef
  have h1 : 2 ^ z * (u - 1) + 2 ^ z = 2 ^ z * u := by rw [← Nat.mul_succ]; congr 1; omega
  have hz0 : 0 < 2 ^ z := by positivity
  have hsub : n - 2 ^ z = 2 ^ z * (u - 1) := by omega
  rw [hsub]
  conv_rhs => rw [hrep]
  rw [popcount_pow_mul, popcount_pow_mul]
  have pu : popcount u = popcount (u / 2) + 1 := by rw [popcount_eq u (by omega)]; omega
  have hdouble := popcount_double_add ((u - 1) / 2) 0 (by omega)
  have pum : popcount (u - 1) = popcount ((u - 1) / 2) := by
    calc popcount (u - 1) = popcount (2 * ((u - 1) / 2) + 0) := by congr 1; omega
    _ = popcount ((u - 1) / 2) + 0 := hdouble
    _ = popcount ((u - 1) / 2) := by omega
  have q : u / 2 = (u - 1) / 2 := by omega
  rw [← q] at pum
  omega


/-- The lowest set bit of a sum is that of the low summand: adding a multiple of
a higher power of two does not change the trailing zeros. -/
theorem ctz_add_high {B H n : Nat} (hn : n ≠ 0) (hnB : n < 2 ^ B) (hH : 2 ^ B ∣ H) :
    ctz (H + n) = ctz n := by
  obtain ⟨u, hu, hrep⟩ := ctz_spec n hn
  obtain ⟨q, hq⟩ := hH
  set z := ctz n with hzdef
  have hz : z < B := ctz_lt_of_lt_two_pow hn hnB
  have key : H + n = 2 ^ z * (2 ^ (B - z) * q + u) := by
    rw [hq]
    conv_lhs => rw [hrep]
    have hpow : 2 ^ z * 2 ^ (B - z) = 2 ^ B := by
      rw [← pow_add]; congr 1; omega
    rw [Nat.mul_add, ← Nat.mul_assoc, hpow]
  have hodd : (2 ^ (B - z) * q + u) % 2 = 1 := by
    have h2 : 2 ^ (B - z) % 2 = 0 := by
      have hne : B - z ≠ 0 := by omega
      rcases Nat.exists_eq_succ_of_ne_zero hne with ⟨k, hk⟩
      rw [hk, pow_succ]; omega
    have h3 : 2 ^ (B - z) * q % 2 = 0 := by
      rw [Nat.mul_mod, h2]; simp
    omega
  rw [key, ctz_two_pow_mul _ hodd]


/-! ### testBit decomposition helpers -/

/-- Bits of `2 ^ i * a + b` with `b < 2 ^ i`: low bits come from `b`, high bits from `a`. -/
theorem testBit_pow_mul_add {i b : Nat} (a j : Nat) (hb : b < 2 ^ i) :
    (2 ^ i * a + b).testBit j = if j < i then b.testBit j else a.testBit (j - i) := by
  by_cases h : j < i
  · simp only [h, if_true]
    rw [Nat.testBit_to_div_mod, Nat.testBit_to_div_mod]
    have hpair : (2 : Nat) ^ j * (2 * 2 ^ (i - j - 1)) = 2 ^ i := by
      rw [show (2 : Nat) * 2 ^ (i - j - 1) = 2 ^ (i - j) from by rw [← pow_succ']; congr 1; omega]
      rw [← pow_add]; congr 1; omega
    have hX : 2 ^ i * a + b = b + 2 ^ j * (2 * (2 ^ (i - j - 1) * a)) := by
      calc 2 ^ i * a + b = b + (2 ^ j * (2 * 2 ^ (i - j - 1))) * a := by rw [hpair]; ring
      _ = b + 2 ^ j * (2 * (2 ^ (i - j - 1) * a)) := by ring
    rw [hX, Nat.add_mul_div_left _ _ (by positivity : 0 < 2 ^ j)]
    have hm : (b / 2 ^ j + 2 * (2 ^ (i - j - 1) * a)) % 2 = b / 2 ^ j % 2 := by omega
    rw [hm]
  · simp only [h, if_false]
    rw [Nat.testBit_to_div_mod, Nat.testBit_to_div_mod]
    have hdiv : (2 ^ i * a + b) / 2 ^ j = a / 2 ^ (j - i) := by
      have hj : (2 : Nat) ^ j = 2 ^ i * 2 ^ (j - i) := by rw [← pow_add]; congr 1; omega
      rw [hj, ← Nat.div_div_eq_div_mul, Nat.mul_add_div (by positivity), Nat.div_eq_of_lt hb,
        Nat.add_zero]
    rw [hdiv]


/-- Bitwise-or of terms with disjoint bit ranges is addition. -/
theorem lor_pow_mul {i b : Nat} (a : Nat) (hb : b < 2 ^ i) : (2 ^ i * a) ||| b = 2 ^ i * a + b := by
  apply Nat.eq_of_testBit_eq
  intro j
  rw [Nat.testBit_lor, testBit_pow_mul_add a j hb]
  by_cases h : j < i
  · have ha : (2 ^ i * a).testBit j = false := by
      have := @testBit_pow_mul_add i 0 a j (by positivity)
      simpa [h] using this
    simp [h, ha]
  · have hbf : b.testBit j = false := Nat.testBit_lt_two_pow (lt_of_lt_of_le hb (Nat.pow_le_pow_right (by omega) (by omega)))
    have ha : (2 ^ i * a).testBit j = a.testBit (j - i) := by
      have := @testBit_pow_mul_add i 0 a j (by positivity)
      simpa [h] using this
    simp [h, ha, hbf]


theorem bandWeight_eq_choose {M N p m : Nat} (hm : m ≤ N) (hp : p ≤ M - N + m) :
    bandWeight M N p m = Nat.choose p m := by
  unfold bandWeight
  by_cases h : m ≤ p
  · simp [hm, hp, h]
  · rw [if_neg (by tauto), Nat.choose_eq_zero_of_lt (by omega)]


theorem fillColumn_rows (M N c : Nat) (hc1 : 1 ≤ c) (hcN : c ≤ N)
    (T : Nat → Nat → Nat)
    (hlow : ∀ p m, m < c → T p m = bandWeight M N p m)
    (hcur : ∀ p, T p c = 0) :
    ∀ k, k ≤ M - N + 1 → ∀ p m,
      ((List.range' c k).foldl
        (fun T' q => updateTable T' q c (T' (q - 1) c + T' (q - 1) (c - 1))) T) p m
      = if m = c ∧ c ≤ p ∧ p < c + k then bandWeight M N p m else T p m := by
  intro k
  induction k with
  | zero =>
    intro _ p m
    simp only [List.range', List.foldl_nil]
    rw [if_neg (by omega)]
  | succ k ih =>
    intro hk p m
    rw [List.range'_concat, List.foldl_append, List.foldl_cons, List.foldl_nil]
    set p0 := c + 1 * k with hp0
    set Tk := (List.range' c k).foldl
      (fun T' q => updateTable T' q c (T' (q - 1) c + T' (q - 1) (c - 1))) T with hTk
    have ihk := ih (by omega)
    have hv1 : Tk (p0 - 1) c = bandWeight M N (p0 - 1) c := by
      rw [ihk]
      by_cases hcase : c ≤ p0 - 1 ∧ p0 - 1 < c + k
      · rw [if_pos (by tauto)]
      · have hk0 : k = 0 := by omega
        rw [if_neg (by omega), hcur]
        unfold bandWeight
        rw [if_neg (by omega)]
    have hv2 : Tk (p0 - 1) (c - 1) = bandWeight M N (p0 - 1) (c - 1) := by
      rw [ihk, if_neg (by omega), hlow _ _ (by omega)]
    have hval : Tk (p0 - 1) c + Tk (p0 - 1) (c - 1) = bandWeight M N p0 c := by
      rw [hv1, hv2]
      have hb0 : bandWeight M N p0 c = Nat.choose p0 c :=
        bandWeight_eq_choose hcN (by omega)
      have hb1 : bandWeight M N (p0 - 1) c = Nat.choose (p0 - 1) c :=
        bandWeight_eq_choose hcN (by omega)
      have hb2 : bandWeight M N (p0 - 1) (c - 1) = Nat.choose (p0 - 1) (c - 1) :=
        bandWeight_eq_choose (by omega) (by omega)
      rw [hb0, hb1, hb2]
      have hpascal := Nat.choose_succ_succ (p0 - 1) (c - 1)
      simp only [Nat.succ_eq_add_one] at hpascal
      have e1 : p0 - 1 + 1 = p0 := by omega
      have e2 : c - 1 + 1 = c := by omega
      rw [e1, e2] at hpascal
      omega
    unfold updateTable
    by_cases hhit : p = p0 ∧ m = c
    · rw [if_pos hhit, hval, hhit.1, hhit.2, if_pos (by omega)]
    · rw [if_neg hhit, ihk]
      by_cases hin : m = c ∧ c ≤ p ∧ p < c + k
      · rw [if_pos hin, if_pos (by omega)]
      · rw [if_neg hin, if_neg (by omega)]


theorem fillColumn_eq (M N c : Nat) (hc1 : 1 ≤ c) (hcN : c ≤ N)
    (T : Nat → Nat → Nat)
    (hlow : ∀ p m, m < c → T p m = bandWeight M N p m)
    (hcur : ∀ p, T p c = 0) :
    ∀ p m, fillColumn M N c T p m = if m = c then bandWeight M N p m else T p m := by
  intro p m
  unfold fillColumn
  rw [fillColumn_rows M N c hc1 hcN T hlow hcur (M - N + 1) (by omega)]
  by_cases hm : m = c
  · subst hm
    by_cases hin : m ≤ p ∧ p < m + (M - N + 1)
    · rw [if_pos (by tauto), if_pos rfl]
    · rw [if_neg (by tauto), if_pos rfl, hcur]
      unfold bandWeight
      rw [if_neg (by omega)]
  · rw [if_neg (by tauto), if_neg hm]


/-- Core table lemma: after construction, the vertex-weight table is exactly the
banded binomial table. -/
theorem vertexWeightsTable_eq_bandWeight (M N : Nat) :
    ∀ p m, vertexWeightsTable M N p m = bandWeight M N p m := by
  have main : ∀ c, c ≤ N → ∀ p m,
      ((List.range' 1 c).foldl (fun T m' => fillColumn M N m' T) (initialTable M N)) p m
      = if m ≤ c then bandWeight M N p m else 0 := by
    intro c
    induction c with
    | zero =>
      intro _ p m
      simp only [List.range', List.foldl_nil, initialTable]
      by_cases hm : m = 0
      · subst hm
        have hb : bandWeight M N p 0 = if p ≤ M - N then 1 else 0 := by
          unfold bandWeight
          by_cases hp : p ≤ M - N
          · rw [if_pos ⟨Nat.zero_le N, Nat.zero_le p, by omega⟩, Nat.choose_zero_right, if_pos hp]
          · rw [if_neg (by omega), if_neg hp]
        rw [if_pos (Nat.le_refl 0), hb]
        by_cases hp : p ≤ M - N
        · rw [if_pos ⟨rfl, by omega⟩, if_pos hp]
        · rw [if_neg (by omega), if_neg hp]
      · rw [if_neg (by tauto), if_neg (by omega)]
    | succ c ihc =>
      intro hc p m
      rw [List.range'_concat, List.foldl_append, List.foldl_cons, List.foldl_nil]
      have e1 : 1 + 1 * c = c + 1 := by omega
      rw [e1]
      rw [fillColumn_eq M N (c + 1) (by omega) (by omega) _
        (fun p' m' hm' => by rw [ihc (by omega) p' m', if_pos (by omega)])
        (fun p' => by rw [ihc (by omega) p' (c + 1), if_neg (by omega)])]
      by_cases hm : m = c + 1
      · rw [if_pos hm, if_pos (by omega)]
      · rw [if_neg hm, ihc (by omega) p m]
        by_cases hmc : m ≤ c
        · rw [if_pos hmc, if_pos (by omega)]
        · rw [if_neg hmc, if_neg (by omega)]
  intro p m
  unfold vertexWeightsTable
  rw [main N (Nat.le_refl N) p m]
  by_cases hm : m ≤ N
  · rw [if_pos hm]
  · rw [if_neg hm]
    unfold bandWeight
    rw [if_neg (by tauto)]


/-- The accessor agrees with the banded binomial table everywhere (out-of-table
indices land outside the band). -/
theorem vertexWeight_eq_bandWeight (M N : Nat) (hNM : N ≤ M) :
    ∀ p m, vertexWeight M N p m = bandWeight M N p m := by
  intro p m
  unfold vertexWeight
  by_cases h : p ≤ M ∧ m ≤ N
  · rw [if_pos h, vertexWeightsTable_eq_bandWeight]
  · rw [if_neg h]
    unfold bandWeight
    rw [if_neg (by omega)]


theorem vertexWeight_eq_choose {M N p m : Nat} (hNM : N ≤ M) (hm : m ≤ N) (hp : p ≤ M - N + m) :
    vertexWeight M N p m = Nat.choose p m := by
  rw [vertexWeight_eq_bandWeight M N hNM, bandWeight_eq_choose hm hp]


theorem rankLoopAux_congr (w : Nat → Nat → Nat) :
    ∀ f g copy a ec, copy ≤ f → copy ≤ g → rankLoopAux w f copy a ec = rankLoopAux w g copy a ec := by
  intro f
  induction f using Nat.strong_induction_on with
  | _ f ih =>
    intro g copy a ec hf hg
    match f, g with
    | 0, g =>
      interval_cases copy
      cases g <;> simp [rankLoopAux]
    | f + 1, 0 =>
      interval_cases copy
      simp [rankLoopAux]
    | f + 1, g + 1 =>
      simp only [rankLoopAux]
      by_cases h : copy = 0
      · simp [h]
      · simp only [h, if_false]
        have hbit : 1 ≤ 2 ^ ctz copy := Nat.one_le_two_pow
        exact ih f (by omega) g _ _ _ (by omega) (by omega)


theorem rankLoop_zero (w : Nat → Nat → Nat) (a ec : Nat) : rankLoop w 0 a ec = a := rfl


theorem rankLoop_step (w : Nat → Nat → Nat) {copy : Nat} (a ec : Nat) (h : copy ≠ 0) :
    rankLoop w copy a ec
      = rankLoop w (copy - 2 ^ ctz copy) (a + w (ctz copy) (ec + 1)) (ec + 1) := by
  unfold rankLoop
  have hbit := two_pow_ctz_le copy h
  have h1 : 1 ≤ 2 ^ ctz copy := Nat.one_le_two_pow
  match copy, h with
  | copy + 1, _ =>
    simp only [rankLoopAux, reduceCtorEq, if_false]
    exact rankLoopAux_congr w copy _ _ _ _ (by omega) (by omega)


/-- Splitting the rank loop at a bit boundary: bits of `L` (all below `2 ^ B`)
are consumed first, then the bits of `H` (a multiple of `2 ^ B`) with the
electron count advanced by `popcount L`. -/
theorem rankLoop_split (w : Nat → Nat → Nat) (B : Nat) :
    ∀ L, L < 2 ^ B → ∀ H, 2 ^ B ∣ H → ∀ a ec,
      rankLoop w (H + L) a ec = rankLoop w H (rankLoop w L a ec) (ec + popcount L) := by
  intro L
  induction L using Nat.strong_induction_on with
  | _ L ih =>
    intro hLB H hH a ec
    by_cases h : L = 0
    · simp [h, rankLoop_zero, popcount_zero]
    · have hz : ctz (H + L) = ctz L := ctz_add_high h hLB hH
      have hbit := two_pow_ctz_le L h
      have h1 : 1 ≤ 2 ^ ctz L := Nat.one_le_two_pow
      have hHL : H + L ≠ 0 := by omega
      rw [rankLoop_step w a ec hHL, hz]
      have e1 : H + L - 2 ^ ctz L = H + (L - 2 ^ ctz L) := by omega
      rw [e1, ih (L - 2 ^ ctz L) (by omega) (by omega) H hH _ (ec + 1)]
      rw [rankLoop_step w a ec h]
      have e2 : ec + 1 + popcount (L - 2 ^ ctz L) = ec + popcount L := by
        have := popcount_sub_two_pow_ctz L h
        omega
      rw [e2]


theorem rankLoop_two_pow (w : Nat → Nat → Nat) (p a ec : Nat) :
    rankLoop w (2 ^ p) a ec = a + w p (ec + 1) := by
  have hne : (2 : Nat) ^ p ≠ 0 := by positivity
  have hctz : ctz (2 ^ p) = p := by
    have := @ctz_two_pow_mul 1 p (by omega)
    simpa using this
  rw [rankLoop_step w a ec hne, hctz]
  simp [rankLoop_zero]


/-- Adding a top bit above all bits of `r` adds one weight term at the final
electron count. -/
theorem rankLoop_top_bit (w : Nat → Nat → Nat) {p r : Nat} (hr : r < 2 ^ p) (a ec : Nat) :
    rankLoop w (2 ^ p + r) a ec = rankLoop w r a ec + w p (ec + popcount r + 1) := by
  rw [rankLoop_split w p r hr (2 ^ p) (dvd_refl _) a ec, rankLoop_two_pow]


/-! ### The combinatorial number system: rank/unrank correctness -/

theorem popcount_one : popcount 1 = 1 := rfl


theorem popcount_top_bit {p r : Nat} (hr : r < 2 ^ p) : popcount (2 ^ p + r) = popcount r + 1 := by
  have h := popcount_split p 1 r hr
  simp only [Nat.mul_one, popcount_one] at h
  omega


theorem colexRank_top_bit {p r : Nat} (hr : r < 2 ^ p) :
    colexRank (2 ^ p + r) = colexRank r + Nat.choose p (popcount r + 1) := by
  unfold colexRank
  rw [rankLoop_top_bit Nat.choose hr 0 0, Nat.zero_add]


theorem colexRank_zero : colexRank 0 = 0 := rfl


/-- Strict bound: the colex rank of an `m`-bit-popcount number below `2 ^ p` is
below `C(p, m)`. -/
theorem colexRank_lt : ∀ p r, r < 2 ^ p → colexRank r < Nat.choose p (popcount r) := by
  intro p
  induction p with
  | zero =>
    intro r hr
    interval_cases r
    simp [colexRank_zero, popcount_zero]
  | succ p ih =>
    intro r hr
    by_cases h : 2 ^ p ≤ r
    · have hr' : r - 2 ^ p < 2 ^ p := by
        have : (2 : Nat) ^ (p + 1) = 2 ^ p + 2 ^ p := by rw [pow_succ]; omega
        omega
      have hsplit : r = 2 ^ p + (r - 2 ^ p) := by omega
      rw [hsplit, colexRank_top_bit hr', popcount_top_bit hr']
      have hih := ih (r - 2 ^ p) hr'
      have hpascal := Nat.choose_succ_succ p (popcount (r - 2 ^ p))
      simp only [Nat.succ_eq_add_one] at hpascal
      omega
    · have hih := ih r (by omega)
      have hmono : Nat.choose p (popcount r) ≤ Nat.choose (p + 1) (popcount r) :=
        Nat.choose_mono _ (by omega)
      omega


theorem unrankNat_m_zero (w : Nat → Nat → Nat) (p a : Nat) : unrankNat w p a 0 = 0 := by
  cases p <;> simp [unrankNat]


/-- Unranking correctness: for every in-range address `a`, the greedy unrank
loop (with binomial weights) produces a number below `2 ^ p` with popcount `m`
whose colex rank is `a`. -/
theorem unrankNat_spec : ∀ p m a, 0 < m → a < Nat.choose p m →
    unrankNat Nat.choose p a m < 2 ^ p ∧
    popcount (unrankNat Nat.choose p a m) = m ∧
    colexRank (unrankNat Nat.choose p a m) = a := by
  intro p
  induction p with
  | zero =>
    intro m a hm ha
    rw [Nat.choose_eq_zero_of_lt (by omega)] at ha
    omega
  | succ p ih =>
    intro m a hm ha
    have hpascal := Nat.choose_succ_succ p (m - 1)
    simp only [Nat.succ_eq_add_one] at hpascal
    have em : m - 1 + 1 = m := by omega
    rw [em] at hpascal
    simp only [unrankNat, Nat.pos_iff_ne_zero.mp hm, if_false]
    by_cases htake : Nat.choose p m ≤ a
    · rw [if_pos htake]
      by_cases hm1 : m = 1
      · subst hm1
        rw [Nat.sub_self 1, unrankNat_m_zero]
        have hval : a = Nat.choose p 1 := by
          rw [Nat.choose_one_right] at htake ⊢
          rw [Nat.choose_one_right] at ha
          omega
        refine ⟨?_, ?_, ?_⟩
        · have : (2 : Nat) ^ (p + 1) = 2 ^ p + 2 ^ p := by rw [pow_succ]; omega
          have : (0 : Nat) < 2 ^ p := by positivity
          omega
        · rw [Nat.add_zero, popcount_two_pow]
        · rw [Nat.add_zero]
          unfold colexRank
          rw [rankLoop_two_pow]
          simpa using hval.symm
      · have hrec := ih (m - 1) (a - Nat.choose p m) (by omega) (by omega)
        obtain ⟨hlt, hpop, hrank⟩ := hrec
        refine ⟨?_, ?_, ?_⟩
        · have : (2 : Nat) ^ (p + 1) = 2 ^ p + 2 ^ p := by rw [pow_succ]; omega
          omega
        · rw [popcount_top_bit hlt, hpop]; omega
        · rw [colexRank_top_bit hlt, hrank, hpop, em]
          omega
    · rw [if_neg htake]
      have hrec := ih m a hm (by omega)
      obtain ⟨hlt, hpop, hrank⟩ := hrec
      have : (2 : Nat) ^ (p + 1) = 2 ^ p + 2 ^ p := by rw [pow_succ]; omega
      exact ⟨by omega, hpop, hrank⟩


/-- Ranking then unranking is the identity on popcount-positive numbers below `2 ^ p`. -/
theorem unrankNat_colexRank : ∀ p r, r < 2 ^ p → 0 < popcount r →
    unrankNat Nat.choose p (colexRank r) (popcount r) = r := by
  intro p
  induction p with
  | zero =>
    intro r hr hpop
    interval_cases r
    simp [popcount_zero] at hpop
  | succ p ih =>
    intro r hr hpop
    simp only [unrankNat, Nat.pos_iff_ne_zero.mp hpop, if_false]
    by_cases h : 2 ^ p ≤ r
    · have hr' : r - 2 ^ p < 2 ^ p := by
        have : (2 : Nat) ^ (p + 1) = 2 ^ p + 2 ^ p := by rw [pow_succ]; omega
        omega
      have hsplit : r = 2 ^ p + (r - 2 ^ p) := by omega
      have hrank : colexRank r = colexRank (r - 2 ^ p) + Nat.choose p (popcount (r - 2 ^ p) + 1) := by
        conv_lhs => rw [hsplit]
        rw [colexRank_top_bit hr']
      have hpc : popcount r = popcount (r - 2 ^ p) + 1 := by
        conv_lhs => rw [hsplit]
        rw [popcount_top_bit hr']
      rw [hpc]
      rw [if_pos (by omega)]
      have e1 : popcount (r - 2 ^ p) + 1 - 1 = popcount (r - 2 ^ p) := by omega
      have e2 : colexRank r - Nat.choose p (popcount (r - 2 ^ p) + 1) = colexRank (r - 2 ^ p) := by
        omega
      rw [e1, e2]
      by_cases hz : popcount (r - 2 ^ p) = 0
      · rw [hz, unrankNat_m_zero]
        have : r - 2 ^ p = 0 := popcount_eq_zero.mp hz
        omega
      · rw [ih (r - 2 ^ p) hr' (by omega)]
        omega
    · have hbound := colexRank_lt p r (by omega)
      rw [if_neg (by omega)]
      exact ih r (by omega) hpop


/-! ### Bridging: the source's vertex-weight loops equal the pure binomial loops
on every in-contract input. -/

/-- Along the `addressOf` loop on a valid representation, every vertex weight
that is looked up lies inside the band of the table, so it equals the binomial
coefficient. -/
theorem rankLoop_vertexWeight_eq (M N : Nat) (hNM : N ≤ M) :
    ∀ c, c < 2 ^ M → ∀ a ec, ec + popcount c = N →
      rankLoop (vertexWeight M N) c a ec = rankLoop Nat.choose c a ec := by
  intro c
  induction c using Nat.strong_induction_on with
  | _ c ih =>
    intro hcM a ec hec
    by_cases h : c = 0
    · simp [h, rankLoop_zero]
    · have hz := ctz_lt_of_lt_two_pow h hcM
      have hbit := two_pow_ctz_le c h
      have h1 : 1 ≤ 2 ^ ctz c := Nat.one_le_two_pow
      have hpop1 : 1 ≤ popcount c := by
        have := @popcount_eq_zero c
        omega
      have hzbound : ctz c + popcount c ≤ M := by
        obtain ⟨u, hu, hrep⟩ := ctz_spec c h
        have hultM : u < 2 ^ (M - ctz c) := by
          by_contra hcon
          have : 2 ^ ctz c * 2 ^ (M - ctz c) ≤ 2 ^ ctz c * u := Nat.mul_le_mul_left _ (by omega)
          rw [← pow_add] at this
          have e : ctz c + (M - ctz c) = M := by omega
          rw [e, ← hrep] at this
          omega
        have hu2 : u / 2 < 2 ^ (M - ctz c - 1) := by
          have hupos : u ≠ 0 := by omega
          have : M - ctz c ≠ 0 := by
            by_contra hcon
            have : (2 : Nat) ^ (M - ctz c) = 1 := by rw [show M - ctz c = 0 by omega]; rfl
            omega
          rcases Nat.exists_eq_succ_of_ne_zero this with ⟨k, hk⟩
          rw [hk, pow_succ] at hultM
          have : u / 2 < 2 ^ k := by omega
          rwa [show M - ctz c - 1 = k by omega]
        have hpc : popcount c = popcount (u / 2) + 1 := by
          rw [hrep, popcount_pow_mul, popcount_eq u (by omega), hu]
        have := popcount_le_of_lt_two_pow (M - ctz c - 1) (u / 2) hu2
        omega
      have hw : vertexWeight M N (ctz c) (ec + 1) = Nat.choose (ctz c) (ec + 1) := by
        apply vertexWeight_eq_choose hNM (by omega) (by omega)
      rw [rankLoop_step (vertexWeight M N) a ec h, rankLoop_step Nat.choose a ec h, hw]
      have hpc := popcount_sub_two_pow_ctz c h
      exact ih (c - 2 ^ ctz c) (by omega) (by omega) _ (ec + 1) (by omega)


theorem addressOf_eq_colexRank {M N r : Nat} (hNM : N ≤ M) (hr : r < 2 ^ M)
    (hpop : popcount r = N) : addressOf M N r = colexRank r := by
  unfold addressOf colexRank
  exact rankLoop_vertexWeight_eq M N hNM r hr 0 0 (by omega)


/-- Along the `representationOfNat` loop, every vertex weight that is looked up
lies inside the band of the table. -/
theorem unrankNat_vertexWeight_eq (M N : Nat) (hNM : N ≤ M) :
    ∀ p a m, m ≤ N → p ≤ M - N + m →
      unrankNat (vertexWeight M N) p a m = unrankNat Nat.choose p a m := by
  intro p
  induction p with
  | zero => intro a m _ _; rfl
  | succ p ih =>
    intro a m hm hp
    by_cases hm0 : m = 0
    · simp [unrankNat, hm0]
    · simp only [unrankNat, hm0, if_false]
      rw [vertexWeight_eq_choose hNM hm (by omega)]
      by_cases htake : Nat.choose p m ≤ a
      · rw [if_pos htake, if_pos htake, ih _ (m - 1) (by omega) (by omega)]
      · rw [if_neg htake, if_neg htake, ih _ m hm (by omega)]


theorem representationOfNat_eq_unrank {M N : Nat} (hNM : N ≤ M) (hN : N ≠ 0) (a : Nat) :
    representationOfNat M N a = unrankNat Nat.choose M a N := by
  unfold representationOfNat
  rw [if_pos hN]
  exact unrankNat_vertexWeight_eq M N hNM M a N (Nat.le_refl N) (by omega)


/-- Round trip, first direction: unranking then ranking is the identity on
addresses below the dimension. -/
theorem addressOf_representationOfNat {M N : Nat} (hNM : N ≤ M) {a : Nat}
    (ha : a < Nat.choose M N) : addressOf M N (representationOfNat M N a) = a := by
  by_cases hN : N = 0
  · subst hN
    rw [Nat.choose_zero_right] at ha
    interval_cases a
    unfold representationOfNat
    simp only [ne_eq, not_true_eq_false, if_false]
    rfl
  · rw [representationOfNat_eq_unrank hNM hN a]
    obtain ⟨hlt, hpop, hrank⟩ := unrankNat_spec M N a (by omega) ha
    rw [addressOf_eq_colexRank hNM hlt hpop, hrank]


/-- Round trip, second direction: ranking then unranking is the identity on
valid representations. -/
theorem representationOfNat_addressOf {M N c : Nat} (hNM : N ≤ M) (hc : c < 2 ^ M)
    (hpop : popcount c = N) : representationOfNat M N (addressOf M N c) = c := by
  by_cases hN : N = 0
  · subst hN
    have hc0 : c = 0 := popcount_eq_zero.mp hpop
    subst hc0
    unfold representationOfNat
    simp
  · rw [addressOf_eq_colexRank hNM hc hpop, representationOfNat_eq_unrank hNM hN _, ← hpop]
    exact unrankNat_colexRank M c hc (by omega)


/-! ### Closed form of the next-permutation bit trick -/

theorem two_pow_succ_eq (k : Nat) : (2 : Nat) ^ (k + 1) = 2 ^ k + 2 ^ k := by ring


theorem mirrorClosed_scanLoop (M N : Nat) (occ : List Nat) (p I : Nat) :
    ∀ fuel address q e2 sign, MirrorClosed (scanLoop M N occ p I fuel address q e2 sign) := by
  intro fuel
  induction fuel with
  | zero => intro _ _ _ _ k a b s h; exact absurd h (List.not_mem_nil _)
  | succ fuel ih =>
    intro address q e2 sign k a b s h
    by_cases hq : q < M
    · simp only [scanLoop, hq, if_true] at h
      rcases List.mem_cons.mp h with h1 | h1
      · simp only [Prod.mk.injEq] at h1
        obtain ⟨hk, ha, hb, hs⟩ := h1
        subst hk; subst ha; subst hb; subst hs
        simp only [scanLoop, hq, if_true]
        exact List.mem_cons_of_mem _ (List.mem_cons_self _ _)
      rcases List.mem_cons.mp h1 with h2 | h2
      · simp only [Prod.mk.injEq] at h2
        obtain ⟨hk, ha, hb, hs⟩ := h2
        subst hk; subst ha; subst hb; subst hs
        simp only [scanLoop, hq, if_true]
        exact List.mem_cons_self _ _
      · simp only [scanLoop, hq, if_true]
        exact List.mem_cons_of_mem _ (List.mem_cons_of_mem _ (ih _ _ _ _ k a b s h2))
    · simp only [scanLoop, hq, if_false] at h
      exact absurd h (List.not_mem_nil _)


theorem mirrorClosed_flatMap {α : Type} (l : List α) (f : α → List (Nat × (Int × Int × Int)))
    (hf : ∀ x ∈ l, MirrorClosed (f x)) : MirrorClosed (l.flatMap f) := by
  intro k a b s h
  rw [List.mem_flatMap] at h ⊢
  obtain ⟨x, hx, hmem⟩ := h
  exact ⟨x, hx, hf x hx k a b s hmem⟩


theorem mirrorClosed_couplingsForElectron (M N : Nat) (occ : List Nat) (I e1 : Nat) :
    MirrorClosed (couplingsForElectron M N occ I e1) := by
  intro k a b s h
  unfold couplingsForElectron at h ⊢
  rcases List.mem_cons.mp h with h1 | h1
  · simp only [Prod.mk.injEq] at h1
    obtain ⟨hk, ha, hb, hs⟩ := h1
    subst hk; subst ha; subst hb; subst hs
    exact List.mem_cons_self _ _
  · exact List.mem_cons_of_mem _ (mirrorClosed_scanLoop M N occ _ I M _ _ _ _ k a b s h1)


theorem mirrorClosed_global (M N : Nat) :
    MirrorClosed ((forEachListNat M N).flatMap (fun rI => couplingsForONV M N rI.1 rI.2)) := by
  apply mirrorClosed_flatMap
  intro rI _
  unfold couplingsForONV
  apply mirrorClosed_flatMap
  intro e1 _
  exact mirrorClosed_couplingsForElectron M N _ rI.2 e1


/-- Hermiticity of the recorded couplings: in every sparse matrix produced by
`calculateOneElectronCouplings`, each triplet is accompanied by its transpose
with the same sign. -/
theorem couplings_hermitian (M N : Nat) :
    ∀ mat ∈ calculateOneElectronCouplings M N, ∀ I J s,
      (I, J, s) ∈ mat.2 → (J, I, s) ∈ mat.2 := by
  intro mat hmat I J s hIJ
  unfold calculateOneElectronCouplings at hmat
  by_cases hN : N = 0
  · rw [if_pos hN] at hmat
    obtain ⟨k, hk, hmk⟩ := List.mem_map.mp hmat
    rw [← hmk] at hIJ
    exact absurd hIJ (List.not_mem_nil _)
  · rw [if_neg hN] at hmat
    obtain ⟨k, hk, hmk⟩ := List.mem_map.mp hmat
    rw [← hmk] at hIJ ⊢
    simp only at hIJ ⊢
    obtain ⟨ent, hent, hent2⟩ := List.mem_map.mp hIJ
    obtain ⟨hgl, hfst⟩ := List.mem_filter.mp hent
    have hk' : ent.1 = k := by simpa using hfst
    have hent_eq : ent = (k, (I, J, s)) := by
      rcases ent with ⟨e1, e2⟩
      simp only at hent2 hk'
      rw [hent2, hk']
    rw [hent_eq] at hgl
    have hmirror := mirrorClosed_global M N k I J s hgl
    apply List.mem_map.mpr
    refine ⟨(k, (J, I, s)), List.mem_filter.mpr ⟨hmirror, by simp⟩, rfl⟩


theorem testBit_add_two_pow {x a : Nat} (hx : x.testBit a = false) (p : Nat) :
    (2 ^ a + x).testBit p = if p = a then true else x.testBit p := by
  have hdecomp : x = 2 ^ (a + 1) * (x / 2 ^ (a + 1)) + x % 2 ^ (a + 1) :=
    (Nat.div_add_mod x (2 ^ (a + 1))).symm
  have hmod := @Nat.mod_pow_succ x 2 a
  have hbit : x / 2 ^ a % 2 = 0 := by
    rw [Nat.testBit_to_div_mod] at hx
    simpa using hx
  have hlo : x % 2 ^ (a + 1) = x % 2 ^ a := by rw [hmod, hbit]; ring
  have hlosmall : x % 2 ^ a < 2 ^ a := Nat.mod_lt _ (by positivity)
  have hps := two_pow_succ_eq a
  have hsum : 2 ^ a + x = 2 ^ (a + 1) * (x / 2 ^ (a + 1)) + (2 ^ a + x % 2 ^ a) := by
    conv_lhs => rw [hdecomp]
    omega
  have hxform : x.testBit p = if p < a + 1 then (x % 2 ^ a).testBit p
      else (x / 2 ^ (a + 1)).testBit (p - (a + 1)) := by
    conv_lhs => rw [hdecomp, hlo]
    exact testBit_pow_mul_add _ p (by omega)
  rw [hsum, testBit_pow_mul_add _ p (by omega), hxform]
  by_cases hp : p < a + 1
  · simp only [hp, if_true]
    have hdec : 2 ^ a + x % 2 ^ a = 2 ^ a * 1 + x % 2 ^ a := by omega
    rw [hdec, testBit_pow_mul_add _ p hlosmall]
    by_cases hpa : p = a
    · subst hpa
      simp [Nat.testBit_to_div_mod]
    · have hplt : p < a := by omega
      simp [hplt, hpa]
  · have hpa : ¬ p = a := by omega
    simp [hp, hpa]


theorem testBit_configurationOf (s : Finset Nat) : ∀ p, (configurationOf s).testBit p = decide (p ∈ s) := by
  induction s using Finset.induction_on with
  | empty => intro p; simp [configurationOf, Nat.zero_testBit]
  | @insert a s ha ih =>
    intro p
    have hx : (configurationOf s).testBit a = false := by rw [ih a]; simp [ha]
    have hins : configurationOf (insert a s) = 2 ^ a + configurationOf s := by
      unfold configurationOf
      rw [Finset.sum_insert ha]
    rw [hins, testBit_add_two_pow hx p]
    by_cases hp : p = a
    · simp [hp]
    · simp [hp, ih p]


theorem occupationIndicesOf_configurationOf (M : Nat) (s : Finset Nat) :
    occupationIndicesOf M (configurationOf s)
      = (List.range M).filter (fun p => decide (p ∈ s)) := by
  unfold occupationIndicesOf
  apply List.filter_congr
  intro p _
  rw [testBit_configurationOf]


/-- Length and sum of the ascending orbital list of a configuration. -/
theorem filter_range_length_sum :
    ∀ M (s : Finset Nat), s ⊆ Finset.range M →
      ((List.range M).filter (fun p => decide (p ∈ s))).length = s.card ∧
      ((List.range M).filter (fun p => decide (p ∈ s))).sum = ∑ p ∈ s, p := by
  intro M
  induction M with
  | zero =>
    intro s hs
    have hemp : s = ∅ := Finset.subset_empty.mp (by simpa using hs)
    subst hemp
    simp
  | succ M ih =>
    intro s hs
    rw [List.range_succ, List.filter_append]
    by_cases hM : M ∈ s
    · have hs' : s.erase M ⊆ Finset.range M := by
        intro p hp
        have h1 := Finset.mem_of_mem_erase hp
        have h2 := Finset.ne_of_mem_erase hp
        have := hs h1
        simp only [Finset.mem_range] at this ⊢
        omega
      have hcongr : (List.range M).filter (fun p => decide (p ∈ s))
          = (List.range M).filter (fun p => decide (p ∈ s.erase M)) := by
        apply List.filter_congr
        intro p hp
        rw [List.mem_range] at hp
        simp only [decide_eq_decide, Finset.mem_erase]
        constructor
        · intro h; exact ⟨by omega, h⟩
        · intro h; exact h.2
      have hsingle : [M].filter (fun p => decide (p ∈ s)) = [M] := by
        simp [hM]
      obtain ⟨ihlen, ihsum⟩ := ih (s.erase M) hs'
      rw [hcongr, hsingle]
      constructor
      · rw [List.length_append, ihlen]
        simp only [List.length_cons, List.length_nil]
        rw [Finset.card_erase_add_one hM]
      · rw [List.sum_append, ihsum]
        simp only [List.sum_cons, List.sum_nil, Nat.add_zero]
        rw [Finset.sum_erase_add s _ hM]
    · have hs' : s ⊆ Finset.range M := by
        intro p hp
        have := hs hp
        simp only [Finset.mem_range] at this ⊢
        have : p ≠ M := by rintro rfl; exact hM hp
        omega
      have hsingle : [M].filter (fun p => decide (p ∈ s)) = [] := by
        simp [hM]
      obtain ⟨ihlen, ihsum⟩ := ih s hs'
      rw [hsingle, List.append_nil]
      exact ⟨ihlen, ihsum⟩


theorem getD_add_le_of_pairwise (L : List Nat) (hp : List.Pairwise (fun a b => a < b) L) :
    ∀ d i, i + d < L.length → L.getD i 0 + d ≤ L.getD (i + d) 0 := by
  intro d
  induction d with
  | zero => intro i h; simp
  | succ d ih =>
    intro i h
    have hstep := ih i (by omega)
    have hd1 : i + d < L.length := by omega
    have hd2 : i + d + 1 < L.length := by omega
    have hcons : L.getD (i + d) 0 < L.getD (i + d + 1) 0 := by
      rw [List.getD_eq_getElem L 0 hd1, List.getD_eq_getElem L 0 hd2]
      have hget := List.pairwise_iff_get.mp hp ⟨i + d, hd1⟩ ⟨i + d + 1, hd2⟩ (Nat.lt_succ_self _)
      simpa [List.get_eq_getElem] using hget
    simp only [← Nat.add_assoc]
    omega


theorem occupationIndices_pairwise (M r : Nat) :
    List.Pairwise (fun a b => a < b) (occupationIndicesOf M r) :=
  List.Pairwise.sublist (List.filter_sublist _) (List.pairwise_lt_range M)


theorem occupationIndices_mem_lt (M r x : Nat) (hx : x ∈ occupationIndicesOf M r) : x < M := by
  unfold occupationIndicesOf at hx
  have := List.mem_of_mem_filter hx
  rwa [List.mem_range] at this


/-- The `e`-th occupied orbital of an `N`-electron configuration leaves room for
the `N - 1 - e` higher occupied orbitals: `p ≤ M - N + e`. -/
theorem occupationIndexOf_le (M N : Nat) (r : Nat)
    (hlen : (occupationIndicesOf M r).length = N) {e : Nat} (he : e < N) :
    occupationIndexOf M r e ≤ M - N + e := by
  have hp := occupationIndices_pairwise M r
  have hchain := getD_add_le_of_pairwise _ hp (N - 1 - e) e (by rw [hlen]; omega)
  have hidx : e + (N - 1 - e) < (occupationIndicesOf M r).length := by rw [hlen]; omega
  have hlast : (occupationIndicesOf M r).getD (e + (N - 1 - e)) 0 < M := by
    rw [List.getD_eq_getElem _ 0 hidx]
    exact occupationIndices_mem_lt M r _ (List.getElem_mem hidx)
  unfold occupationIndexOf
  omega


theorem sum_range_getD (L : List Nat) : ∑ i ∈ Finset.range L.length, L.getD i 0 = L.sum := by
  induction L with
  | nil => simp
  | cons a L ih =>
    simp only [List.length_cons, List.sum_cons]
    rw [Finset.sum_range_succ']
    simp only [List.getD_cons_succ, List.getD_cons_zero]
    rw [ih]
    omega


/-- Per-configuration identity: the coupling count plus the sum of occupied
orbitals is the constant `∑ e < N, (M - N + e)`. -/
theorem countOne_add_sum (M N : Nat) (s : Finset Nat) (hs : s ⊆ Finset.range M)
    (hcard : s.card = N) :
    countOneElectronCouplings M N (configurationOf s) + (∑ p ∈ s, p)
      = ∑ e ∈ Finset.range N, (M - N + e) := by
  obtain ⟨hlen, hsum⟩ := filter_range_length_sum M s hs
  rw [← occupationIndicesOf_configurationOf M s] at hlen hsum
  have hlenN : (occupationIndicesOf M (configurationOf s)).length = N := by rw [hlen, hcard]
  have hbound : ∀ e ∈ Finset.range N,
      occupationIndexOf M (configurationOf s) e ≤ M - N + e := by
    intro e he
    rw [Finset.mem_range] at he
    exact occupationIndexOf_le M N _ hlenN he
  have hsumocc : ∑ e ∈ Finset.range N, occupationIndexOf M (configurationOf s) e = ∑ p ∈ s, p := by
    unfold occupationIndexOf
    rw [← hsum, ← sum_range_getD, hlenN]
  unfold countOneElectronCouplings
  rw [← hsumocc, ← Finset.sum_add_distrib]
  apply Finset.sum_congr rfl
  intro e he
  have := hbound e he
  omega


theorem card_powersetCard_filter_mem (M N p : Nat) (hp : p < M) (hN : 1 ≤ N) :
    ((Finset.powersetCard N (Finset.range M)).filter (fun s => p ∈ s)).card
      = Nat.choose (M - 1) (N - 1) := by
  have hbij : ((Finset.powersetCard N (Finset.range M)).filter (fun s => p ∈ s)).card
      = (Finset.powersetCard (N - 1) ((Finset.range M).erase p)).card := by
    refine Finset.card_bij' (fun s _ => s.erase p) (fun t _ => insert p t) ?_ ?_ ?_ ?_
    · intro s hs
      obtain ⟨hmem, hps⟩ := Finset.mem_filter.mp hs
      obtain ⟨hsub, hcard⟩ := Finset.mem_powersetCard.mp hmem
      apply Finset.mem_powersetCard.mpr
      exact ⟨Finset.erase_subset_erase p hsub, by rw [Finset.card_erase_of_mem hps, hcard]⟩
    · intro t ht
      obtain ⟨hsub, hcard⟩ := Finset.mem_powersetCard.mp ht
      have hpt : p ∉ t := fun hmem => Finset.not_mem_erase p _ (hsub hmem)
      apply Finset.mem_filter.mpr
      refine ⟨Finset.mem_powersetCard.mpr ⟨?_, ?_⟩, Finset.mem_insert_self p t⟩
      · apply Finset.insert_subset (Finset.mem_range.mpr hp)
        exact hsub.trans (Finset.erase_subset p _)
      · rw [Finset.card_insert_of_not_mem hpt, hcard]
        omega
    · intro s hs
      exact Finset.insert_erase (Finset.mem_filter.mp hs).2
    · intro t ht
      have hsub := (Finset.mem_powersetCard.mp ht).1
      exact Finset.erase_insert (fun hmem => Finset.not_mem_erase p _ (hsub hmem))
  rw [hbij, Finset.card_powersetCard, Finset.card_erase_of_mem (Finset.mem_range.mpr hp),
    Finset.card_range]


/-- Double counting: summed over all `N`-subsets of the orbitals, the total of
occupied-orbital indices counts every orbital `C(M-1, N-1)` times. -/
theorem sum_sum_powersetCard (M N : Nat) (hN : 1 ≤ N) :
    ∑ s ∈ Finset.powersetCard N (Finset.range M), (∑ p ∈ s, p)
      = Nat.choose (M - 1) (N - 1) * ∑ p ∈ Finset.range M, p := by
  have hext : ∀ s ∈ Finset.powersetCard N (Finset.range M),
      (∑ p ∈ s, p) = ∑ p ∈ Finset.range M, if p ∈ s then p else 0 := by
    intro s hs
    have hsub := (Finset.mem_powersetCard.mp hs).1
    rw [Finset.sum_ite_mem, Finset.inter_eq_right.mpr hsub]
  rw [Finset.sum_congr rfl hext, Finset.sum_comm]
  rw [Finset.mul_sum]
  apply Finset.sum_congr rfl
  intro p hp
  rw [← Finset.sum_filter, Finset.sum_const, smul_eq_mul,
    card_powersetCard_filter_mem M N p (Finset.mem_range.mp hp) hN]


/-- The coupling-count identity, for the exact (unwrapped) product: the total
number of one-electron couplings is twice the per-configuration count summed
over all configurations. -/
theorem countTotal_eq_twice_sum (M N : Nat) (hNM : N ≤ M) :
    (M - N) * N * Nat.choose M N
      = 2 * ∑ s ∈ Finset.powersetCard N (Finset.range M),
          countOneElectronCouplings M N (configurationOf s) := by
  by_cases hN : N = 0
  · subst hN
    simp [countOneElectronCouplings]
  · have hN1 : 1 ≤ N := by omega
    have hM1 : 1 ≤ M := by omega
    have hE1 : (∑ s ∈ Finset.powersetCard N (Finset.range M),
          countOneElectronCouplings M N (configurationOf s))
        + (∑ s ∈ Finset.powersetCard N (Finset.range M), (∑ p ∈ s, p))
        = Nat.choose M N * ((M - N) * N + ∑ e ∈ Finset.range N, e) := by
      rw [← Finset.sum_add_distrib]
      have hterm : ∀ s ∈ Finset.powersetCard N (Finset.range M),
          countOneElectronCouplings M N (configurationOf s) + (∑ p ∈ s, p)
            = (M - N) * N + ∑ e ∈ Finset.range N, e := by
        intro s hs
        obtain ⟨hsub, hcard⟩ := Finset.mem_powersetCard.mp hs
        rw [countOne_add_sum M N s hsub hcard, Finset.sum_add_distrib, Finset.sum_const,
          Finset.card_range, smul_eq_mul]
        ring
      rw [Finset.sum_congr rfl hterm, Finset.sum_const, Finset.card_powersetCard,
        Finset.card_range, smul_eq_mul]
    have hE3 := sum_sum_powersetCard M N hN1
    have hG1 := Finset.sum_range_id_mul_two N
    have hG2 := Finset.sum_range_id_mul_two M
    have hE4 : N * Nat.choose M N = M * Nat.choose (M - 1) (N - 1) := by
      have h := Nat.succ_mul_choose_eq (M - 1) (N - 1)
      simp only [Nat.succ_eq_add_one] at h
      have e1 : M - 1 + 1 = M := by omega
      have e2 : N - 1 + 1 = N := by omega
      rw [e1, e2] at h
      rw [Nat.mul_comm N (Nat.choose M N)]
      exact h.symm
    -- pass to the integers for the final linear combination
    have hVN : M - N + N = M := by omega
    zify [hN1, hM1] at hE1 hE3 hG1 hG2 hE4 hVN ⊢
    linear_combination (-2 : ℤ) * hE1 - (Nat.choose M N : ℤ) * hG1
      + 2 * hE3 + (Nat.choose (M - 1) (N - 1) : ℤ) * hG2
      - ((M : ℤ) - 1) * hE4 - (Nat.choose M N : ℤ) * (N : ℤ) * hVN


theorem binom_succ (n k : Nat) : binom n (k + 1) = binom n k * (n - k) / (k + 1) := by
  unfold binom
  rw [List.range_succ, List.foldl_append, List.foldl_cons, List.foldl_nil]


theorem binom_eq_choose (n k : Nat) : binom n k = Nat.choose n k := by
  induction k with
  | zero => simp [binom]
  | succ k ih =>
    rw [binom_succ, ih, ← Nat.choose_succ_right_eq, Nat.mul_div_cancel _ (by omega)]


theorem roundFloat64_small {n : Nat} (h : n < 2 ^ 53) : roundFloat64 n = n := by
  unfold roundFloat64
  rw [if_pos h]


/-- Exactness on the float-exact range: dimensions below `2 ^ 53` are returned
exactly, with no error. -/
theorem calculateDimension_exact (M N : Nat) (h : Nat.choose M N < 2 ^ 53) :
    calculateDimension M N = Except.ok (Nat.choose M N) := by
  unfold calculateDimension
  rw [roundFloat64_small h, if_pos (lt_trans h (by norm_num))]


/-- Overflow detection in the model: when the rounded value does not fit
`size_t`, an overflow error is raised rather than a silent wrap. -/
theorem calculateDimension_overflow (M N : Nat) (h : 2 ^ 64 ≤ roundFloat64 (Nat.choose M N)) :
    calculateDimension M N = Except.error "overflow" := by
  unfold calculateDimension
  rw [if_neg (by omega)]


theorem choose_64_32_eq : Nat.choose 64 32 = 1832624140942590534 := by
  rw [← binom_eq_choose]
  decide


theorem firstLoopBound64_overflow (M : Nat) (hM : M + 1 < 2 ^ 64) :
    firstLoopBound64 M (M + 1) = 0 := by
  unfold firstLoopBound64 sub64
  rw [Nat.mod_eq_of_lt (show M < 2 ^ 64 by omega),
    Nat.mod_eq_of_lt (show M + 1 < 2 ^ 64 by omega)]
  rw [show M + 2 ^ 64 - (M + 1) = 2 ^ 64 - 1 by omega]
  rw [Nat.mod_eq_of_lt (show 2 ^ 64 - 1 < 2 ^ 64 by omega)]
  rw [show 2 ^ 64 - 1 + 1 = 2 ^ 64 by omega]
  exact Nat.mod_self _


theorem innerLoopBound64_overflow (M m : Nat) (hM : M + 1 < 2 ^ 64) (hm : 1 ≤ m)
    (hmu : m < 2 ^ 64) : innerLoopBound64 M (M + 1) m = m := by
  unfold innerLoopBound64 sub64
  rw [Nat.mod_eq_of_lt (show M < 2 ^ 64 by omega),
    Nat.mod_eq_of_lt (show M + 1 < 2 ^ 64 by omega)]
  rw [show M + 2 ^ 64 - (M + 1) = 2 ^ 64 - 1 by omega]
  rw [Nat.mod_eq_of_lt (show 2 ^ 64 - 1 < 2 ^ 64 by omega)]
  have h1 : 2 ^ 64 - 1 + m = 2 ^ 64 + (m - 1) := by omega
  rw [h1, Nat.add_mod_left, Nat.mod_eq_of_lt (show m - 1 < 2 ^ 64 by omega)]
  rw [show m - 1 + 1 = m by omega]
  exact Nat.mod_eq_of_lt hmu


/-- With `N = M + 1` the wrapped loop bounds empty both weight-filling loops:
construction completes with the all-zero table. -/
theorem vertexWeightsTable64_N_succ_M_zero (M : Nat) (hM : M + 1 < 2 ^ 64) :
    ∀ p m, vertexWeightsTable64 M (M + 1) p m = 0 := by
  have hinner : ∀ T, (List.range' 1 (M + 1)).foldl
      (fun T m => (List.range' m (innerLoopBound64 M (M + 1) m - m)).foldl
        (fun T' p => updateTable T' p m (T' (p - 1) m + T' (p - 1) (m - 1))) T) T = T := by
    have hgen : ∀ (l : List Nat), (∀ m ∈ l, 1 ≤ m ∧ m < 2 ^ 64) → ∀ T,
        l.foldl (fun T m => (List.range' m (innerLoopBound64 M (M + 1) m - m)).foldl
          (fun T' p => updateTable T' p m (T' (p - 1) m + T' (p - 1) (m - 1))) T) T = T := by
      intro l
      induction l with
      | nil => intro _ T; rfl
      | cons m l ih =>
        intro hmem T
        obtain ⟨hm1, hm2⟩ := hmem m (List.mem_cons_self _ _)
        rw [List.foldl_cons, innerLoopBound64_overflow M m hM hm1 hm2, Nat.sub_self]
        exact ih (fun x hx => hmem x (List.mem_cons_of_mem _ hx)) T
    intro T
    apply hgen
    intro m hm
    have := List.mem_range'_1.mp hm
    omega
  intro p m
  unfold vertexWeightsTable64
  rw [hinner]
  rw [firstLoopBound64_overflow M hM]
  simp


theorem foldl_innerFill_apply {n : Nat} {K : Type} [CommRing K] (ic : Fin (n + 1)) (w : Fin n → K) :
    ∀ (l : List (Fin n)) (B : Matrix (Fin (n + 1)) (Fin (n + 1)) K) (i' j' : Fin (n + 1)),
      (l.foldl (fun B j => matUpdate B ic j.castSucc (w j)) B) i' j'
        = if i' = ic ∧ (∃ j0 ∈ l, j' = Fin.castSucc j0) then
            (if h : (j' : Nat) < n then w (Fin.castLT j' h) else 0)
          else B i' j' := by
  intro l
  induction l with
  | nil =>
    intro B i' j'
    simp
  | cons j l ih =>
    intro B i' j'
    rw [List.foldl_cons, ih]
    by_cases hcond : i' = ic ∧ ∃ j0 ∈ l, j' = Fin.castSucc j0
    · rw [if_pos hcond, if_pos ⟨hcond.1, hcond.2.imp (fun j0 hj0 => ⟨List.mem_cons_of_mem _ hj0.1, hj0.2⟩)⟩]
    · rw [if_neg hcond]
      unfold matUpdate
      by_cases hhit : i' = ic ∧ j' = Fin.castSucc j
      · rw [if_pos hhit, if_pos ⟨hhit.1, ⟨j, List.mem_cons_self _ _, hhit.2⟩⟩]
        have hj' : (j' : Nat) < n := by
          rw [hhit.2, Fin.coe_castSucc]
          exact j.isLt
        rw [dif_pos hj']
        congr 1
        apply Fin.ext
        rw [Fin.coe_castLT, hhit.2, Fin.coe_castSucc]
      · rw [if_neg hhit, if_neg ?_]
        rintro ⟨hic, j0, hj0mem, hj0⟩
        rcases List.mem_cons.mp hj0mem with h0 | h0
        · exact hhit ⟨hic, by rw [hj0, h0]⟩
        · exact hcond ⟨hic, j0, h0, hj0⟩


theorem foldl_outerFill_apply {n : Nat} {K : Type} [CommRing K] (W : Fin n → Fin n → K) :
    ∀ (l : List (Fin n)) (B : Matrix (Fin (n + 1)) (Fin (n + 1)) K) (i' j' : Fin (n + 1)),
      (l.foldl (fun B i => (List.finRange n).foldl
          (fun B j => matUpdate B i.castSucc j.castSucc (W i j)) B) B) i' j'
        = if (∃ i0 ∈ l, i' = Fin.castSucc i0) ∧ (j' : Nat) < n then
            (if h : (i' : Nat) < n ∧ (j' : Nat) < n then W (Fin.castLT i' h.1) (Fin.castLT j' h.2) else 0)
          else B i' j' := by
  intro l
  induction l with
  | nil =>
    intro B i' j'
    simp
  | cons i l ih =>
    intro B i' j'
    rw [List.foldl_cons, ih]
    by_cases hcond : (∃ i0 ∈ l, i' = Fin.castSucc i0) ∧ (j' : Nat) < n
    · rw [if_pos hcond,
        if_pos ⟨hcond.1.imp (fun i0 hi0 => ⟨List.mem_cons_of_mem _ hi0.1, hi0.2⟩), hcond.2⟩]
    · rw [if_neg hcond, foldl_innerFill_apply i.castSucc (fun j => W i j) (List.finRange n) B i' j']
      by_cases hhit : i' = Fin.castSucc i ∧ (j' : Nat) < n
      · have hex : ∃ j0 ∈ List.finRange n, j' = Fin.castSucc j0 := by
          refine ⟨Fin.castLT j' hhit.2, List.mem_finRange _, ?_⟩
          apply Fin.ext
          rw [Fin.coe_castSucc, Fin.coe_castLT]
        rw [if_pos ⟨hhit.1, hex⟩, if_pos ⟨⟨i, List.mem_cons_self _ _, hhit.1⟩, hhit.2⟩]
        have hi' : (i' : Nat) < n := by
          rw [hhit.1, Fin.coe_castSucc]
          exact i.isLt
        rw [dif_pos hhit.2, dif_pos ⟨hi', hhit.2⟩]
        congr 1
        apply Fin.ext
        rw [Fin.coe_castLT, hhit.1, Fin.coe_castSucc]
      · rw [if_neg ?_, if_neg ?_]
        · rintro ⟨⟨i0, hi0mem, hi0⟩, hj'⟩
          rcases List.mem_cons.mp hi0mem with h0 | h0
          · exact hhit ⟨by rw [hi0, h0], hj'⟩
          · exact hcond ⟨⟨i0, h0, hi0⟩, hj'⟩
        · rintro ⟨hic, j0, _, hj0⟩
          apply hhit
          refine ⟨hic, ?_⟩
          rw [hj0, Fin.coe_castSucc]
          exact j0.isLt


/-- The imperatively-built DIIS matrix is exactly the bordered trace-overlap
matrix described by the specification. -/
theorem diisBMatrix_eq_spec (d n : Nat) (K : Type) [CommRing K]
    (errs : List (Matrix (Fin d) (Fin d) K)) :
    diisBMatrix d n K errs = diisBSpec d n K errs := by
  funext i' j'
  unfold diisBMatrix diisBSpec
  rw [foldl_outerFill_apply (fun i j => (Matrix.transpose (errs.getD (i : Nat) 0) * errs.getD (j : Nat) 0).trace)
    (List.finRange n) _ i' j']
  by_cases hij : (i' : Nat) < n ∧ (j' : Nat) < n
  · have hex : ∃ i0 ∈ List.finRange n, i' = Fin.castSucc i0 := by
      refine ⟨Fin.castLT i' hij.1, List.mem_finRange _, ?_⟩
      apply Fin.ext
      rw [Fin.coe_castSucc, Fin.coe_castLT]
    rw [if_pos ⟨hex, hij.2⟩, dif_pos hij, if_pos hij]
    rw [Fin.coe_castLT, Fin.coe_castLT]
  · have hnotex : ¬((∃ i0 ∈ List.finRange n, i' = Fin.castSucc i0) ∧ (j' : Nat) < n) := by
      rintro ⟨⟨i0, _, hi0⟩, hj'⟩
      apply hij
      refine ⟨?_, hj'⟩
      rw [hi0, Fin.coe_castSucc]
      exact i0.isLt
    rw [if_neg hnotex, if_neg hij]
    unfold matUpdate
    have hlast : ∀ x : Fin (n + 1), x = Fin.last n ↔ (x : Nat) = n := by
      intro x
      rw [Fin.ext_iff, Fin.val_last]
    by_cases hcorner : i' = Fin.last n ∧ j' = Fin.last n
    · rw [if_pos hcorner, if_pos ⟨(hlast i').mp hcorner.1, (hlast j').mp hcorner.2⟩]
    · rw [if_neg hcorner, if_neg ?_]
      rintro ⟨hi, hj⟩
      exact hcorner ⟨(hlast i').mpr hi, (hlast j').mpr hj⟩


/-- The imperatively-built right-hand side is exactly the vector described by
the specification. -/
theorem diisRHSVec_eq_spec (n : Nat) (K : Type) [CommRing K] :
    diisRHSVec n K = diisRHSSpec n K := by
  funext i
  unfold diisRHSVec diisRHSSpec vecUpdate
  by_cases hi : i = Fin.last n
  · rw [if_pos hi, if_pos (by rw [hi, Fin.val_last])]
  · rw [if_neg hi, if_neg (fun h => hi (Fin.ext (by rw [h, Fin.val_last])))]


/-! ### Supporting definitions for the claim instances -/

/-- Zero everywhere in the weight table means the rank loop never adds
anything: every representation receives the same (initial) address. -/
theorem rankLoopAux_zero_weight (w : Nat → Nat → Nat) (hw : ∀ p m, w p m = 0) :
    ∀ fuel copy a ec, rankLoopAux w fuel copy a ec = a := by
  intro fuel
  induction fuel with
  | zero => intro copy a ec; rfl
  | succ fuel ih =>
    intro copy a ec
    simp only [rankLoopAux]
    by_cases h : copy = 0
    · simp [h]
    · simp only [h, if_false]
      rw [ih, hw, Nat.add_zero]


theorem rankLoop_zero_weight (w : Nat → Nat → Nat) (hw : ∀ p m, w p m = 0)
    (copy a ec : Nat) : rankLoop w copy a ec = a :=
  rankLoopAux_zero_weight w hw copy copy a ec


/-- The ideal unranking always stays below `2 ^ p`: each set bit is strictly
below the current orbital index. -/
theorem unrankNat_lt (w : Nat → Nat → Nat) : ∀ p a m, unrankNat w p a m < 2 ^ p := by
  intro p
  induction p with
  | zero =>
    intro a m
    simp [unrankNat]
  | succ p ih =>
    intro a m
    rw [unrankNat]
    have h2 : (2 : Nat) ^ (p + 1) = 2 ^ p + 2 ^ p := two_pow_succ_eq p
    by_cases hm : m = 0
    · rw [if_pos hm]
      positivity
    · rw [if_neg hm]
      by_cases hw : w p m ≤ a
      · rw [if_pos hw]
        have := ih (a - w p m) (m - 1)
        omega
      · rw [if_neg hw]
        have := ih a m
        omega


theorem some_bind_eq {α β : Type} (a : α) (f : α → Option β) :
    (Option.some a).bind f = f a := rfl


/-- The faithful unranking loop agrees with the ideal one whenever the ideal
result stays below bit 31: every bit set then goes through the exact branch of
`intShl1`, and the `|||` accumulation over disjoint bits equals the ideal
addition.  (The loop's control flow never depends on the representation, so
the two loops take identical branches.) -/
theorem unrankLoopAcc_eq_unrankNat (w : Nat → Nat → Nat) :
    ∀ p a m rep, m ≠ 0 → unrankNat w p a m < 2 ^ 31 →
      unrankLoopAcc w p a m rep = some (rep ||| unrankNat w p a m) := by
  intro p
  induction p with
  | zero =>
    intro a m rep _ _
    simp [unrankLoopAcc, unrankNat]
  | succ p ih =>
    intro a m rep hm hlt
    have hstep : unrankNat w (p + 1) a m
        = if w p m ≤ a then 2 ^ p + unrankNat w p (a - w p m) (m - 1)
          else unrankNat w p a m := by
      rw [unrankNat, if_neg hm]
    rw [unrankLoopAcc]
    by_cases hw : w p m ≤ a
    · rw [hstep, if_pos hw] at hlt ⊢
      have hrest := unrankNat_lt w p (a - w p m) (m - 1)
      have hp30 : p ≤ 30 := by
        by_contra hp
        have hle : (2 : Nat) ^ 31 ≤ 2 ^ p := Nat.pow_le_pow_right (by norm_num) (by omega)
        omega
      rw [if_pos hw, intShl1, if_pos hp30, some_bind_eq]
      have hsplit : (2 : Nat) ^ p + unrankNat w p (a - w p m) (m - 1)
          = 2 ^ p ||| unrankNat w p (a - w p m) (m - 1) := by
        have h := lor_pow_mul 1 hrest
        rw [Nat.mul_one] at h
        omega
      by_cases hm1 : m - 1 = 0
      · rw [if_pos hm1]
        rw [hm1, unrankNat_m_zero, Nat.add_zero]
      · rw [if_neg hm1, ih (a - w p m) (m - 1) (rep ||| 2 ^ p) hm1 (by omega)]
        rw [hsplit, Nat.lor_assoc]
    · rw [hstep, if_neg hw] at hlt ⊢
      rw [if_neg hw]
      exact ih a m rep hm hlt


/-- On bases with at most 31 orbitals the faithful `representationOf` returns
exactly the ideal value: every bit index is at most 30, inside the exact range
of the `int`-width shift. -/
theorem representationOf_eq_some (M N a : Nat) (hM : M ≤ 31) :
    representationOf M N a = some (representationOfNat M N a) := by
  by_cases hN : N = 0
  · subst hN
    simp [representationOf, representationOfNat]
  · rw [representationOf, if_pos hN, representationOfNat, if_pos hN]
    rw [unrankLoopAcc_eq_unrankNat (vertexWeight M N) M a N 0 hN ?_]
    · rw [Nat.zero_or]
    · calc unrankNat (vertexWeight M N) M a N < 2 ^ M := unrankNat_lt _ _ _ _
        _ ≤ 2 ^ 31 := Nat.pow_le_pow_right (by norm_num) hM


/-! ### The claims -/

/-- C1 counterexample: the round trip fails on the basis `M = 32, N = 1` at
the valid configuration `c = 2 ^ 31` (one bit among the lowest 32):
`addressOf c = 31`, but `representationOf 31` sets bit 31 through the
`int`-width shift, whose sign extension yields `2 ^ 64 - 2 ^ 31` (bits 31–63)
instead of `2 ^ 31`. -/
theorem claim_C1_addressing_counterexample :
    popcount (2 ^ 31) = 1 ∧ 2 ^ 31 < 2 ^ 32 ∧
    addressOf 32 1 (2 ^ 31) = 31 ∧
    representationOf 32 1 (addressOf 32 1 (2 ^ 31)) = some (2 ^ 64 - 2 ^ 31) ∧
    representationOf 32 1 (addressOf 32 1 (2 ^ 31)) ≠ some (2 ^ 31) :=
  ⟨by decide, by decide, by decide, by decide, by decide⟩


/-- C1 (amended): the round-trip bijection holds on every basis with at most
31 orbitals (`N ≤ M ≤ 31`), where all bit indices stay within the exact range
of the source's `int`-width bit set: every address `a < C(M, N)` unranks to
some representation `r` with `addressOf r = a`, and every representation `c`
with exactly `N` bits among the lowest `M` bits satisfies
`representationOf (addressOf c) = some c`.  For `M ≥ 32` the bit set
sign-extends at index 31 and is undefined behaviour beyond, and the round
trip fails (see the counterexample). -/
theorem claim_C1_addressing_roundtrip_amended (M N : Nat) (hNM : N ≤ M) (hM : M ≤ 31) :
    (∀ a, a < Nat.choose M N →
      ∃ r, representationOf M N a = some r ∧ addressOf M N r = a) ∧
    (∀ c, c < 2 ^ M → popcount c = N →
      representationOf M N (addressOf M N c) = some c) := by
  constructor
  · intro a ha
    exact ⟨representationOfNat M N a, representationOf_eq_some M N a hM,
      addressOf_representationOfNat hNM ha⟩
  · intro c hc hpop
    rw [representationOf_eq_some M N _ hM, representationOfNat_addressOf hNM hc hpop]


theorem claim_C1_addressing_roundtrip_amended_witness :
    ((2 : Nat) ≤ 5 ∧ (5 : Nat) ≤ 31) ∧
      (∃ r, representationOf 5 2 7 = some r ∧ addressOf 5 2 r = 7) ∧
      representationOf 5 2 (addressOf 5 2 6) = some 6 :=
  ⟨by decide,
   (claim_C1_addressing_roundtrip_amended 5 2 (by decide) (by decide)).1 7 (by decide),
   (claim_C1_addressing_roundtrip_amended 5 2 (by decide) (by decide)).2 6 (by decide) (by decide)⟩


/-- C2: the constructed vertex-weight table has first column `1` on rows
`0 … M - N` and `0` elsewhere, satisfies the additive recurrence inside the
band `m ≤ p ≤ M - N + m` for `m ≥ 1`, vanishes outside the band, and its
entry at `(M, N)` is the binomial coefficient `C(M, N)`. -/
theorem claim_C2_vertex_weight_table (M N : Nat) (hNM : N ≤ M) :
    (∀ p, vertexWeightsTable M N p 0 = if p ≤ M - N then 1 else 0) ∧
    (∀ p m, 1 ≤ m → m ≤ N → m ≤ p → p ≤ M - N + m →
      vertexWeightsTable M N p m
        = vertexWeightsTable M N (p - 1) m + vertexWeightsTable M N (p - 1) (m - 1)) ∧
    (∀ p m, ¬(m ≤ N ∧ m ≤ p ∧ p ≤ M - N + m) → vertexWeightsTable M N p m = 0) ∧
    vertexWeightsTable M N M N = Nat.choose M N := by
  refine ⟨?_, ?_, ?_, ?_⟩
  · intro p
    rw [vertexWeightsTable_eq_bandWeight]
    unfold bandWeight
    by_cases hp : p ≤ M - N
    · rw [if_pos ⟨Nat.zero_le N, Nat.zero_le p, by omega⟩, Nat.choose_zero_right, if_pos hp]
    · rw [if_neg (by omega), if_neg hp]
  · intro p m hm1 hmN hmp hpb
    rw [vertexWeightsTable_eq_bandWeight, vertexWeightsTable_eq_bandWeight,
      vertexWeightsTable_eq_bandWeight]
    rw [bandWeight_eq_choose hmN hpb, bandWeight_eq_choose hmN (by omega),
      bandWeight_eq_choose (show m - 1 ≤ N by omega) (by omega)]
    obtain ⟨a, rfl⟩ : ∃ a, p = a + 1 := ⟨p - 1, by omega⟩
    obtain ⟨b, rfl⟩ : ∃ b, m = b + 1 := ⟨m - 1, by omega⟩
    simp only [Nat.add_sub_cancel]
    have h := Nat.choose_succ_succ a b
    simp only [Nat.succ_eq_add_one] at h
    omega
  · intro p m hband
    rw [vertexWeightsTable_eq_bandWeight]
    unfold bandWeight
    rw [if_neg hband]
  · rw [vertexWeightsTable_eq_bandWeight,
      bandWeight_eq_choose (Nat.le_refl N) (by omega)]


theorem claim_C2_vertex_weight_table_witness :
    (2 : Nat) ≤ 5 ∧ vertexWeightsTable 5 2 5 2 = Nat.choose 5 2 :=
  ⟨by decide, (claim_C2_vertex_weight_table 5 2 (by decide)).2.2.2⟩


/-- C4: hermiticity of the recorded couplings: in every sparse matrix produced
by `calculateOneElectronCouplings`, every triplet `(I, J, sign)` is recorded
together with the mirrored triplet `(J, I, sign)` carrying the same sign, in
the same matrix. -/
theorem claim_C4_couplings_hermitian (M N : Nat) :
    ∀ mat ∈ calculateOneElectronCouplings M N, ∀ I J s,
      (I, J, s) ∈ mat.2 → (J, I, s) ∈ mat.2 :=
  couplings_hermitian M N


theorem claim_C4_couplings_hermitian_witness :
    ((1 : Int), (0 : Int), (1 : Int)) ∈
      [((0 : Int), (1 : Int), (1 : Int)), ((1 : Int), (0 : Int), (1 : Int))] :=
  claim_C4_couplings_hermitian 2 1
    (2, [(0, 1, 1), (1, 0, 1)]) (by decide) 0 1 1 (by decide)


/-- C5 counterexample: on the constructible basis `M = 64, N = 32` (its
dimension fits `size_t`) the product `(M - N) * N * C(M, N) ≈ 1.88 × 10^21`
exceeds `2 ^ 64`, so the `size_t` computation wraps and
`countTotalOneElectronCouplings` does not return `(M - N) * N * C(M, N)`. -/
theorem claim_C5_coupling_count_counterexample :
    countTotalOneElectronCouplings 64 32 ≠ (64 - 32) * 32 * Nat.choose 64 32 := by
  rw [show countTotalOneElectronCouplings 64 32
      = ((64 - 32) * 32 * Nat.choose 64 32) % 2 ^ 64 from rfl, choose_64_32_eq]
  decide


/-- C5 (amended): `countTotalOneElectronCouplings` returns the `size_t`
product `(M - N) * N * C(M, N) mod 2 ^ 64`; the exact (unwrapped) product
equals twice the sum of `countOneElectronCouplings` over all `C(M, N)`
configurations of the basis, and therefore so does the returned value
whenever the product fits 64 bits. -/
theorem claim_C5_coupling_count_amended (M N : Nat) (hNM : N ≤ M) :
    countTotalOneElectronCouplings M N = ((M - N) * N * Nat.choose M N) % 2 ^ 64 ∧
    (M - N) * N * Nat.choose M N
      = 2 * ∑ s ∈ Finset.powersetCard N (Finset.range M),
          countOneElectronCouplings M N (configurationOf s) ∧
    ((M - N) * N * Nat.choose M N < 2 ^ 64 →
      countTotalOneElectronCouplings M N
        = 2 * ∑ s ∈ Finset.powersetCard N (Finset.range M),
            countOneElectronCouplings M N (configurationOf s)) := by
  refine ⟨rfl, countTotal_eq_twice_sum M N hNM, fun h => ?_⟩
  rw [show countTotalOneElectronCouplings M N
      = ((M - N) * N * Nat.choose M N) % 2 ^ 64 from rfl,
    Nat.mod_eq_of_lt h, countTotal_eq_twice_sum M N hNM]


theorem claim_C5_coupling_count_amended_witness :
    countTotalOneElectronCouplings 4 2 = ((4 - 2) * 2 * Nat.choose 4 2) % 2 ^ 64 ∧
    countTotalOneElectronCouplings 4 2
      = 2 * ∑ s ∈ Finset.powersetCard 2 (Finset.range 4),
          countOneElectronCouplings 4 2 (configurationOf s) :=
  ⟨(claim_C5_coupling_count_amended 4 2 (by decide)).1,
   (claim_C5_coupling_count_amended 4 2 (by decide)).2.2 (by decide)⟩


/-- C6: the DIIS step: with `n` the error deque's size after the current
Fock/error pair is appended, if `n` is below the minimum subspace dimension
the freshly computed Fock matrix is returned unchanged; otherwise the result
is `∑_{i<n} y_i • F_i` where `y` is the abstract solver's solution of the
`(n+1)`-dimensional augmented system with the trace-overlap block, `-1`
border, zero corner, and right-hand side `(0, …, 0, -1)`. -/
theorem claim_C6_diis_step (d : Nat) (K : Type) [CommRing K]
    (linSolve : (m : Nat) → Matrix (Fin m) (Fin m) K → (Fin m → K) → (Fin m → K))
    (mind maxd : Nat) (Fs Es : List (Matrix (Fin d) (Fin d) K))
    (f_AO D_AO S : Matrix (Fin d) (Fin d) K) :
    ((Es ++ [f_AO * D_AO * S - S * D_AO * f_AO]).length < mind →
      (calculateNewFockMatrix d K linSolve mind maxd Fs Es f_AO D_AO S).1 = f_AO) ∧
    (mind ≤ (Es ++ [f_AO * D_AO * S - S * D_AO * f_AO]).length →
      (calculateNewFockMatrix d K linSolve mind maxd Fs Es f_AO D_AO S).1
        = ∑ i : Fin ((Es ++ [f_AO * D_AO * S - S * D_AO * f_AO]).length + 1),
            if (i : Nat) < (Es ++ [f_AO * D_AO * S - S * D_AO * f_AO]).length then
              (linSolve ((Es ++ [f_AO * D_AO * S - S * D_AO * f_AO]).length + 1)
                (diisBSpec d (Es ++ [f_AO * D_AO * S - S * D_AO * f_AO]).length K
                  (Es ++ [f_AO * D_AO * S - S * D_AO * f_AO]))
                (diisRHSSpec (Es ++ [f_AO * D_AO * S - S * D_AO * f_AO]).length K)) i •
                (Fs ++ [f_AO]).getD (i : Nat) 0
            else 0) := by
  rw [← diisBMatrix_eq_spec, ← diisRHSVec_eq_spec]
  constructor <;> intro h
  · simp only [calculateNewFockMatrix]
    rw [if_neg (Nat.not_le.mpr h)]
    by_cases hmax : maxd < (Es ++ [f_AO * D_AO * S - S * D_AO * f_AO]).length
    · rw [if_pos hmax]
    · rw [if_neg hmax]
  · simp only [calculateNewFockMatrix]
    rw [if_pos h]
    by_cases hmax : maxd < (Es ++ [f_AO * D_AO * S - S * D_AO * f_AO]).length
    · rw [if_pos hmax]
    · rw [if_neg hmax]


theorem claim_C6_diis_step_witness :
    (calculateNewFockMatrix 1 ℤ zeroSolve 2 3 [] [] (constMat1 3) (constMat1 1)
        (constMat1 1)).1 = constMat1 3 ∧
    (calculateNewFockMatrix 1 ℤ zeroSolve 1 3 [] [] (constMat1 3) (constMat1 1)
        (constMat1 1)).1
      = ∑ i : Fin 2,
          if (i : Nat) < 1 then
            (zeroSolve 2
              (diisBSpec 1 1 ℤ
                [constMat1 3 * constMat1 1 * constMat1 1
                  - constMat1 1 * constMat1 1 * constMat1 3])
              (diisRHSSpec 1 ℤ)) i • ([constMat1 3].getD (i : Nat) 0)
          else 0 :=
  ⟨(claim_C6_diis_step 1 ℤ zeroSolve 2 3 [] [] (constMat1 3) (constMat1 1)
      (constMat1 1)).1 (by decide),
   (claim_C6_diis_step 1 ℤ zeroSolve 1 3 [] [] (constMat1 3) (constMat1 1)
      (constMat1 1)).2 (by decide)⟩


/-- C7: the dense-evaluation guards: when the operator's (or the
Hamiltonian's) orbital count differs from the basis's, `evaluateOperatorDense`
returns an invalid-argument error and no evaluation happens; when they match,
no error is raised and the evaluation result is returned. -/
theorem claim_C7_dense_dimension_guard (A : Type) (M N f_orbitals h_orbitals : Nat)
    (evalOne evalHam : Nat → A) :
    (f_orbitals ≠ M → ∃ msg, evaluateOperatorDenseOne A M N f_orbitals evalOne
        = Except.error (EvalError.invalidArgument msg)) ∧
    (f_orbitals = M → evaluateOperatorDenseOne A M N f_orbitals evalOne
        = Except.ok (evalOne (dimension M N))) ∧
    (h_orbitals ≠ M → ∃ msg, evaluateOperatorDenseHamiltonian A M N h_orbitals evalHam
        = Except.error (EvalError.invalidArgument msg)) ∧
    (h_orbitals = M → evaluateOperatorDenseHamiltonian A M N h_orbitals evalHam
        = Except.ok (evalHam (dimension M N))) := by
  refine ⟨fun h => ?_, fun h => ?_, fun h => ?_, fun h => ?_⟩
  · unfold evaluateOperatorDenseOne
    rw [if_pos h]
    exact ⟨_, rfl⟩
  · rw [evaluateOperatorDenseOne, if_neg (by simp [h])]
  · unfold evaluateOperatorDenseHamiltonian
    rw [if_pos h]
    exact ⟨_, rfl⟩
  · rw [evaluateOperatorDenseHamiltonian, if_neg (by simp [h])]


theorem claim_C7_dense_dimension_guard_witness :
    (∃ msg, evaluateOperatorDenseOne Nat 3 1 2 id
        = Except.error (EvalError.invalidArgument msg)) ∧
    evaluateOperatorDenseHamiltonian Nat 3 1 3 id = Except.ok (id (dimension 3 1)) :=
  ⟨(claim_C7_dense_dimension_guard Nat 3 1 2 2 id id).1 (by decide),
   (claim_C7_dense_dimension_guard Nat 3 1 2 3 id id).2.2.2 rfl⟩


/-- C8 counterexample: at `M = 64, N = 32` the exact dimension
`C(64, 32) = 1832624140942590534` needs 61 significand bits, so the
`double`-based computation silently rounds it to `1832624140942590464`; the
rounded value is below `2^64`, so no overflow is raised and a wrong dimension
is returned. -/
theorem claim_C8_dimension_counterexample :
    calculateDimension 64 32 ≠ Except.ok (Nat.choose 64 32) ∧
    calculateDimension 64 32 = Except.ok 1832624140942590464 := by
  constructor
  · simp only [calculateDimension, choose_64_32_eq]
    rw [if_pos (by decide)]
    simp only [ne_eq, Except.ok.injEq]
    decide
  · simp only [calculateDimension, choose_64_32_eq]
    rw [if_pos (by decide)]
    exact congrArg Except.ok (by decide)


/-- C8 (amended): `calculateDimension` returns the exact binomial coefficient
`C(M, N)` whenever it is below `2^53` (the `double`-exact range), and raises
an overflow error whenever the `double` value reaches `2^64`; for dimensions
in between, the returned value is the `double` rounding of `C(M, N)` and can
silently differ from the exact integer. -/
theorem claim_C8_dimension_amended (M N : Nat) :
    (Nat.choose M N < 2 ^ 53 → calculateDimension M N = Except.ok (Nat.choose M N)) ∧
    (2 ^ 64 ≤ roundFloat64 (Nat.choose M N) →
      calculateDimension M N = Except.error "overflow") :=
  ⟨fun h => calculateDimension_exact M N h, fun h => calculateDimension_overflow M N h⟩


theorem claim_C8_dimension_amended_witness :
    calculateDimension 5 2 = Except.ok (Nat.choose 5 2) ∧
    calculateDimension 70 35 = Except.error "overflow" :=
  ⟨(claim_C8_dimension_amended 5 2).1 (by decide),
   (claim_C8_dimension_amended 70 35).2 (by
      rw [show Nat.choose 70 35 = 112186277816662845432 by rw [← binom_eq_choose]; decide]
      decide)⟩


/-- C9: the constructor performs no `N ≤ M` check: with
`N = M + 1` the `size_t` bound `M - N + 1` wraps to `0`, both weight-filling
loops run zero iterations, and construction completes silently with the
all-zero table — under which the rank loop sends every representation to
address 0, so distinct configurations collide instead of an invalid-argument
error being raised. -/
theorem claim_C9_constructor_unchecked (M : Nat) (hM : M + 1 < 2 ^ 64) :
    firstLoopBound64 M (M + 1) = 0 ∧
    (∀ p m, vertexWeightsTable64 M (M + 1) p m = 0) ∧
    (∀ r a, rankLoop (vertexWeightsTable64 M (M + 1)) r a 0 = a) :=
  ⟨firstLoopBound64_overflow M hM, vertexWeightsTable64_N_succ_M_zero M hM,
   fun r a => rankLoop_zero_weight _ (vertexWeightsTable64_N_succ_M_zero M hM) r a 0⟩


theorem claim_C9_constructor_unchecked_witness :
    (2 : Nat) + 1 < 2 ^ 64 ∧ firstLoopBound64 2 3 = 0 ∧
      vertexWeightsTable64 2 3 2 3 = 0 ∧ rankLoop (vertexWeightsTable64 2 3) 5 0 0 = 0 :=
  ⟨by decide, (claim_C9_constructor_unchecked 2 (by decide)).1,
   (claim_C9_constructor_unchecked 2 (by decide)).2.1 2 3,
   (claim_C9_constructor_unchecked 2 (by decide)).2.2 5 0⟩


/-- C10: the zero-electron edge case: for every `M`, the dimension computation
returns exactly 1 with no error, the constructed table's top entry is 1,
`representationOfNat 0` is the all-zero bitstring, and
`calculateOneElectronCouplings` returns `M (M + 1) / 2` sparse matrices of
dimension 1 containing no entries. -/
theorem claim_C10_zero_electron_edge (M : Nat) :
    calculateDimension M 0 = Except.ok 1 ∧
    dimension M 0 = 1 ∧
    vertexWeightsTable M 0 M 0 = 1 ∧
    representationOf M 0 0 = some 0 ∧
    calculateOneElectronCouplings M 0
      = (List.range (M * (M + 1) / 2)).map (fun _ => (1, [])) := by
  have hch : Nat.choose M 0 = 1 := Nat.choose_zero_right M
  refine ⟨?_, ?_, ?_, ?_, ?_⟩
  · rw [calculateDimension_exact M 0 (by rw [hch]; norm_num), hch]
  · rw [dimension, hch]
  · rw [vertexWeightsTable_eq_bandWeight,
      bandWeight_eq_choose (Nat.le_refl 0) (by omega), hch]
  · simp [representationOf]
  · rw [calculateOneElectronCouplings, if_pos rfl, dimension, hch]

end GQCP
